import Mathlib

/-!
# Verification of the mojom IDL front-end / wire codec and the texture-compressor tool

The repository has two Rust components:

* `src/mojo/public/rust/mojom_parser/lib.rs` — the mojom IDL parser and wire
  codec.  The crate root only declares its modules (`ast`, `deparse_values`,
  `pack`, `parse_messages`, `parse_primitives`, `parse_values`); the module
  bodies are not part of the visible sources.  Everything in the `Mojom`
  namespace below is therefore *modelled from the specification* of those
  modules (lexer, value parser, declaration parser, pack, deparse), and the
  theorems check the specification's claims against that model.

* `src/ui/android/texture_compressor/main.rs` — a small PNG pass-through tool;
  its `main` is embedded directly in the `TextureCompressor` namespace, with
  the I/O effects reified as an explicit result trace.

Bytes are modelled as `List Nat` with every entry `< 256`; machine integers
use explicit `% 2 ^ w` arithmetic.
-/

namespace Mojom

/-! ## Little-endian byte encoding primitives -/

/-- A wire buffer: a list of byte values. -/
abbrev Bytes := List Nat

/-- Little-endian encoding of `v` into exactly `n` bytes (truncating above `2^(8n)`). -/
def encodeLE : Nat → Nat → Bytes
  | 0, _ => []
  | n + 1, v => (v % 256) :: encodeLE n (v / 256)

/-- Little-endian decoding of a byte list. -/
def decodeLE : Bytes → Nat
  | [] => 0
  | b :: bs => b + 256 * decodeLE bs

/-- Two's-complement little-endian encoding of a signed integer into `n` bytes. -/
def encodeIntLE (n : Nat) (i : Int) : Bytes :=
  encodeLE n (i.emod (2 ^ (8 * n))).toNat

/-- Two's-complement little-endian decoding of `n` bytes. -/
def decodeIntLE (n : Nat) (bs : Bytes) : Int :=
  let u := decodeLE bs
  if u < 2 ^ (8 * n - 1) then (u : Int) else (u : Int) - 2 ^ (8 * n)

/-- Read `n` bytes at offset `off`; fails when the buffer is too short. -/
def readAt (buf : Bytes) (off n : Nat) : Option Bytes :=
  if off + n ≤ buf.length then some ((buf.drop off).take n) else none

end Mojom

namespace TextureCompressor

/-! ## Embedding of `src/ui/android/texture_compressor/main.rs`

`main` is embedded as a pure function from the argument vector and an
environment (the outcomes of its I/O calls: whether `File::open` succeeds,
what the PNG decoder returns, whether `File::create` succeeds) to an explicit
trace of its observable effects. -/

/-- A file operation performed by the program, in order. -/
inductive FileOp where
  | openRead (path : String)
  | createWrite (path : String)
  deriving DecidableEq, Repr

/-- What the PNG decoder produced for the input file: the frame info fields
used by `main` (`info.width`, `info.height`, `info.color_type`,
`info.bit_depth`, `info.buffer_size()`), plus the contents of `buf` after
`next_frame` filled it. -/
structure DecodedPng where
  width : Nat
  height : Nat
  colorType : Nat
  bitDepth : Nat
  bufferSize : Nat
  frameData : List Nat
  deriving DecidableEq, Repr

/-- Environment: the outcomes of the fallible I/O calls `main` makes, one per
`.expect(...)` site in `main.rs`. -/
structure Env where
  /-- `File::open(input_path)` succeeds. -/
  openOk : Bool
  /-- `decoder.read_info()` succeeds. -/
  infoOk : Bool
  /-- `reader.next_frame(&mut buf)`: `none` when it fails, otherwise the
  decoded frame. -/
  frame : Option DecodedPng
  /-- `File::create(output_path)` succeeds. -/
  createOk : Bool
  /-- `encoder.write_header()` succeeds. -/
  writeHeaderOk : Bool
  /-- `writer.write_image_data(bytes)` succeeds. -/
  writeDataOk : Bool
  deriving DecidableEq, Repr

/-- The output PNG as written: header fields and image data. -/
structure OutputPng where
  path : String
  width : Nat
  height : Nat
  colorType : Nat
  bitDepth : Nat
  data : List Nat
  deriving DecidableEq, Repr

/-- Observable result of running `main`. -/
inductive MainResult where
  /-- `eprintln!` of the usage message followed by `std::process::exit(1)`. -/
  | usageExit (stderrMsg : String) (code : Nat) (fileOps : List FileOp)
  /-- a panic from one of the `.expect(...)` calls, with the file operations
  performed before the panic. -/
  | panic (msg : String) (fileOps : List FileOp)
  /-- normal termination: file operations, stdout lines, and the PNG written. -/
  | ok (fileOps : List FileOp) (stdout : List String) (output : OutputPng)
  deriving DecidableEq, Repr

/-- The usage message printed to stderr (`eprintln!` in `main`). -/
def usageMsg (args : List String) : String :=
  "Usage: " ++ args.headD "" ++ " <input.png> <output.png> [etc1_output.etc1]"

/-- Embedding of `main`: follows `main.rs` line by line.  `args` is the full
`env::args()` vector (program name first). -/
def runMain (args : List String) (env : Env) : MainResult :=
  if args.length < 3 || args.length > 4 then
    .usageExit (usageMsg args) 1 []
  else
    let inputPath := args.getD 1 ""
    let outputPath := args.getD 2 ""
    let etc1OutputPath := args.get? 3
    if !env.openOk then
      .panic "Failed to open input file" []
    else if !env.infoOk then
      .panic "Failed to read PNG info" [.openRead inputPath]
    else
      match env.frame with
      | none => .panic "Failed to read PNG frame" [.openRead inputPath]
      | some d =>
        let bytes := d.frameData.take d.bufferSize
        let stdout :=
          match etc1OutputPath with
          | some p => ["ETC1 output will be saved to: " ++ p]
          | none => []
        if !env.createOk then
          .panic "Failed to create output file" [.openRead inputPath]
        else if !env.writeHeaderOk then
          .panic "Failed to write PNG header" [.openRead inputPath, .createWrite outputPath]
        else if !env.writeDataOk then
          .panic "Failed to write PNG data" [.openRead inputPath, .createWrite outputPath]
        else
          .ok [.openRead inputPath, .createWrite outputPath] stdout
            { path := outputPath, width := d.width, height := d.height,
              colorType := d.colorType, bitDepth := d.bitDepth, data := bytes }

/-- The file operations a result records. -/
def MainResult.fileOps : MainResult → List FileOp
  | .usageExit _ _ ops => ops
  | .panic _ ops => ops
  | .ok ops _ _ => ops

end TextureCompressor

namespace Mojom

/-! ## Primitive lexer

Modelled from the spec: the bodies of `parse_primitives` are not under `src/`
(the crate root `lib.rs` only declares the module), so `tokenize` follows the
spec's contract for the primitive lexer: classify identifiers, integer
literals and punctuation, skip whitespace and `//` comments, and emit an
error token (never raise) on a malformed character.  Fuel equal to the input
length makes the recursion structural; each step consumes at least one
character, so the initial fuel `length + 1` never runs out. -/

/-- The opening-brace character. -/
def braceL : Char := '\x7b'

/-- The closing-brace character. -/
def braceR : Char := '\x7d'

/-- A classified lexical unit. -/
inductive Token where
  | ident (s : String)
  | intLit (v : Nat)
  | punct (c : Char)
  | errTok (c : Char)
  deriving DecidableEq, Repr

/-- Characters allowed inside an identifier after the first. -/
def isIdentChar (c : Char) : Bool := c.isAlphanum || c = '_'

/-- Punctuation recognised by the lexer. -/
def isPunctChar (c : Char) : Bool :=
  c = braceL || c = braceR || c = ';' || c = ',' || c = '=' || c = '[' || c = ']' ||
  c = '|' || c = '@' || c = '-' || c = '(' || c = ')' || c = '<' || c = '>' ||
  c = '&' || c = '?' || c = '.' || c = ':'

/-- Decimal value of a digit character. -/
def digitVal (c : Char) : Nat := c.toNat - '0'.toNat

/-- Decimal value of a digit string. -/
def digitsToNat (cs : List Char) : Nat := cs.foldl (fun a c => 10 * a + digitVal c) 0

/-- Fueled tokenizer over the character list. -/
def tokenizeF : Nat → List Char → List Token
  | 0, _ => []
  | _ + 1, [] => []
  | fuel + 1, c :: cs =>
    if c = '/' && cs.head? = some '/' then
      tokenizeF fuel (cs.dropWhile (fun x => x ≠ '\n'))
    else if c.isWhitespace then
      tokenizeF fuel cs
    else if c.isAlpha || c = '_' then
      .ident (String.mk (c :: cs.takeWhile isIdentChar)) :: tokenizeF fuel (cs.dropWhile isIdentChar)
    else if c.isDigit then
      .intLit (digitsToNat (c :: cs.takeWhile Char.isDigit)) :: tokenizeF fuel (cs.dropWhile Char.isDigit)
    else if isPunctChar c then
      .punct c :: tokenizeF fuel cs
    else
      .errTok c :: tokenizeF fuel cs

/-- `tokenize(source)`: the lexer's entry point. -/
def tokenize (s : String) : List Token := tokenizeF (s.length + 1) s.data

/-! ## Value parser

Modelled from the spec: the bodies of `parse_values` are not under `src/`.
Grammar per the spec: `literal | identifier | [ value (, value)* ] |
value | value`, with `|` left-associative at the lowest precedence.  The
parser is fueled (structural on the fuel); each production consumes at least
one token, so fuel `length + 1` suffices.  The modelled literal fragment is
integer literals, named references and array literals (string/float literals
are not exercised by any claim). -/

/-- The literal-expression tree produced by the value parser. -/
inductive PValue where
  | intLit (v : Nat)
  | ref (name : String)
  | arr (elems : List PValue)
  | orV (a b : PValue)

mutual

/-- Fueled `parse_value`: a primary followed by a left-associative `|` chain. -/
def parseValueF : Nat → List Token → Option (PValue × List Token)
  | 0, _ => none
  | fuel + 1, ts =>
    match parsePrimaryF fuel ts with
    | some (a, r) => parseOrRestF fuel a r
    | none => none

/-- Fueled primary-expression parser: integer literal, named reference, or
array literal. -/
def parsePrimaryF : Nat → List Token → Option (PValue × List Token)
  | 0, _ => none
  | _ + 1, Token.intLit v :: r => some (.intLit v, r)
  | _ + 1, Token.ident s :: r => some (.ref s, r)
  | fuel + 1, Token.punct c :: r =>
    if c = '[' then
      match parseValueF fuel r with
      | some (v, r1) => parseArrTailF fuel [v] r1
      | none => none
    else none
  | _ + 1, _ => none

/-- Fueled array-literal tail: `, value`* followed by `]`. -/
def parseArrTailF : Nat → List PValue → List Token → Option (PValue × List Token)
  | 0, _, _ => none
  | fuel + 1, acc, Token.punct c :: r =>
    if c = ',' then
      match parseValueF fuel r with
      | some (v, r1) => parseArrTailF fuel (acc ++ [v]) r1
      | none => none
    else if c = ']' then some (.arr acc, r)
    else none
  | _ + 1, _, _ => none

/-- Fueled `|`-chain: fold further primaries onto `a` from the left. -/
def parseOrRestF : Nat → PValue → List Token → Option (PValue × List Token)
  | 0, _, _ => none
  | fuel + 1, a, Token.punct c :: r =>
    if c = '|' then
      match parsePrimaryF fuel r with
      | some (b, r1) => parseOrRestF fuel (.orV a b) r1
      | none => none
    else some (a, Token.punct c :: r)
  | _ + 1, a, ts => some (a, ts)

end

/-- `parse_value(tokens)`: the value parser's entry point. -/
def parse_value (ts : List Token) : Option (PValue × List Token) :=
  parseValueF (ts.length + 1) ts

/-! ## Declaration (message) parser and AST

Modelled from the spec: the bodies of `ast` and `parse_messages` are not
under `src/`.  The modelled fragment covers struct, union and enum
declarations — ordered field lists with explicit (`@n`) or auto-incremented
ordinals, and enum value lists with optional explicit integer assignment
defaulting to previous value + 1 starting at 0 — plus the semantic
validation pass, whose errors (duplicate ordinal within one struct/union
scope) are reported alongside the AST rather than aborting it. -/

/-- A parsed struct/union field. -/
structure PField where
  typeName : String
  name : String
  explicitOrdinal : Option Nat
  ordinal : Nat
  minVersion : Nat
  deriving DecidableEq, Repr

/-- A parsed enum value. -/
structure PEnumVal where
  name : String
  value : Int
  deriving DecidableEq, Repr

/-- A top-level declaration of the AST. -/
inductive Decl where
  | structD (name : String) (fields : List PField)
  | unionD (name : String) (fields : List PField)
  | enumD (name : String) (values : List PEnumVal)
  deriving DecidableEq, Repr

/-- Semantic-validation errors: reported but non-fatal. -/
inductive SemanticError where
  | duplicateOrdinal (declName : String)
  | duplicateName (declName : String)
  deriving DecidableEq, Repr

/-- Fueled struct/union body parser: fields until the closing brace.
`nextOrd` is the next auto-assigned ordinal. -/
def parseFieldsF : Nat → Nat → List Token → Option (List PField × List Token)
  | 0, _, _ => none
  | _ + 1, _, Token.punct c :: r =>
    if c = braceR then some ([], r) else none
  | fuel + 1, nextOrd, Token.ident ty :: Token.ident nm :: r =>
    match r with
    | Token.punct c :: Token.intLit n :: r2 =>
      if c = '@' then
        match r2 with
        | Token.punct c2 :: r3 =>
          if c2 = ';' then
            match parseFieldsF fuel (n + 1) r3 with
            | some (fs, r4) =>
              some ({ typeName := ty, name := nm, explicitOrdinal := some n,
                      ordinal := n, minVersion := 0 } :: fs, r4)
            | none => none
          else none
        | _ => none
      else if c = ';' then
        none
      else none
    | Token.punct c :: r2 =>
      if c = ';' then
        match parseFieldsF fuel (nextOrd + 1) r2 with
        | some (fs, r3) =>
          some ({ typeName := ty, name := nm, explicitOrdinal := none,
                  ordinal := nextOrd, minVersion := 0 } :: fs, r3)
        | none => none
      else none
    | _ => none
  | _ + 1, _, _ => none

/-- Fueled enum body parser: values until the closing brace.  `next` is the
default value for the next name (previous value + 1, starting at 0). -/
def parseEnumValsF : Nat → Int → List Token → Option (List PEnumVal × List Token)
  | 0, _, _ => none
  | fuel + 1, next, Token.ident nm :: r =>
    let step : Int → List Token → Option (List PEnumVal × List Token) := fun v r2 =>
      match r2 with
      | Token.punct c :: r3 =>
        if c = ',' then
          match parseEnumValsF fuel (v + 1) r3 with
          | some (vs, r4) => some ({ name := nm, value := v } :: vs, r4)
          | none => none
        else if c = braceR then
          some ([{ name := nm, value := v }], r3)
        else none
      | _ => none
    match r with
    | Token.punct c :: Token.intLit n :: r2 =>
      if c = '=' then step (Int.ofNat n) r2 else none
    | Token.punct c :: Token.punct c2 :: Token.intLit n :: r2 =>
      if c = '=' && c2 = '-' then step (-(Int.ofNat n)) r2 else none
    | _ => step next r
  | _ + 1, _, Token.punct c :: r =>
    if c = braceR then some ([], r) else none
  | _ + 1, _, _ => none

/-- Fueled top-level declaration parser: a sequence of
`struct|union|enum name \x7b ... \x7d ;` declarations. -/
def parseDeclsF : Nat → List Token → Option (List Decl)
  | 0, _ => none
  | _ + 1, [] => some []
  | fuel + 1, Token.ident kw :: Token.ident nm :: Token.punct c :: r =>
    if c = braceL then
      if kw = "struct" || kw = "union" then
        match parseFieldsF fuel 0 r with
        | some (fs, Token.punct c2 :: r2) =>
          if c2 = ';' then
            match parseDeclsF fuel r2 with
            | some ds =>
              some ((if kw = "struct" then Decl.structD nm fs else Decl.unionD nm fs) :: ds)
            | none => none
          else none
        | _ => none
      else if kw = "enum" then
        match parseEnumValsF fuel 0 r with
        | some (vs, Token.punct c2 :: r2) =>
          if c2 = ';' then
            match parseDeclsF fuel r2 with
            | some ds => some (Decl.enumD nm vs :: ds)
            | none => none
          else none
        | _ => none
      else none
    else none
  | _ + 1, _ => none

/-- The explicit ordinals of a field list. -/
def explicitOrdinals (fields : List PField) : List Nat :=
  fields.filterMap (fun f => f.explicitOrdinal)

/-- Semantic validation of one declaration: duplicate explicit ordinals
within one struct/union scope are reported. -/
def validateDecl : Decl → List SemanticError
  | .structD nm fs =>
    if (explicitOrdinals fs).any (fun o => 2 ≤ (explicitOrdinals fs).count o) then
      [.duplicateOrdinal nm]
    else []
  | .unionD nm fs =>
    if (explicitOrdinals fs).any (fun o => 2 ≤ (explicitOrdinals fs).count o) then
      [.duplicateOrdinal nm]
    else []
  | .enumD _ _ => []

/-- `parse_messages(tokens)`: parse the declarations, then run semantic
validation; semantic errors are returned alongside the AST (non-fatal). -/
def parse_messages (ts : List Token) : Option (List Decl × List SemanticError) :=
  match parseDeclsF (ts.length + 1) ts with
  | some ds => some (ds, ds.flatMap validateDecl)
  | none => none

/-! ## Wire codec: type references and runtime values

Modelled from the spec: the bodies of `pack` and `deparse_values` are not
under `src/`.  `TypeRef` carries struct/union/enum declarations inline (the
`ast_context` lookup of named types is resolved into the `TypeRef` before the
codec runs); struct fields are `(minimum-version, type)` pairs in ordinal
order, union members are `(tag, type)` pairs.  The modelled fragment covers
the types whose encodings the spec pins down — fixed-width integers, bool,
enum, string, array, struct, union; floating point, maps, handles and
nullability are outside the model. -/

/-- A resolved type reference. -/
inductive TypeRef where
  | int (w : Nat) (signed : Bool)
  | boolT
  | enumT (values : List Int)
  | stringT
  | arrayT (elem : TypeRef)
  | structT (version : Nat) (fields : List (Nat × TypeRef))
  | unionT (members : List (Nat × TypeRef))

/-- A runtime value. -/
inductive Value where
  | intV (i : Int)
  | boolV (b : Bool)
  | strV (s : List Nat)
  | arrV (elems : List Value)
  | structV (fields : List Value)
  | unionV (tag : Nat) (pay : Value)

/-- Codec errors: all fatal to the single pack/deparse call. -/
inductive CodecError where
  | typeMismatch
  | rangeError
  | bufferTooShort
  | corruptPointer
  | unknownTag
  deriving DecidableEq, Repr

/-- Inline slot width of a type: scalars their own width, pointers 8 bytes,
unions 16 bytes inline. -/
def slotSize : TypeRef → Nat
  | .int w _ => w
  | .boolT => 1
  | .enumT _ => 4
  | .stringT => 8
  | .arrayT _ => 8
  | .structT _ _ => 8
  | .unionT _ => 16

/-- Alignment of an inline slot: every scalar aligned to its own size, up to
a maximum 8-byte boundary. -/
def slotAlign (t : TypeRef) : Nat :=
  match t with
  | .unionT _ => 8
  | _ => min (slotSize t) 8

/-- Scalar types are stored inline; everything else is pointer-indirected
(unions use their fixed 16-byte inline encoding). -/
def isScalar : TypeRef → Bool
  | .int _ _ => true
  | .boolT => true
  | .enumT _ => true
  | _ => false

/-- Round `n` up to the next multiple of `a`. -/
def alignTo (a n : Nat) : Nat := n + (a - n % a) % a

/-- End offset of the inline layout of the fields visible at version `ver`,
starting from `cur` (8, just past the struct header). -/
def layoutEnd (ver : Nat) : Nat → List (Nat × TypeRef) → Nat
  | cur, [] => cur
  | cur, (mv, t) :: rest =>
    if ver < mv then layoutEnd ver cur rest
    else layoutEnd ver (alignTo (slotAlign t) cur + slotSize t) rest

/-- Pack a scalar value against a scalar type: little-endian two's-complement
for integers and enums (4-byte signed), one byte for bool.  `RangeError` when
the literal cannot fit the target width, `TypeMismatch` when the value tag
does not correspond to the type. -/
def packScalar : TypeRef → Value → Except CodecError Bytes
  | .int w true, .intV i =>
    if -(2 ^ (8 * w - 1) : Int) ≤ i ∧ i < 2 ^ (8 * w - 1) then .ok (encodeIntLE w i)
    else .error .rangeError
  | .int w false, .intV i =>
    if 0 ≤ i ∧ i < (2 ^ (8 * w) : Int) then .ok (encodeIntLE w i)
    else .error .rangeError
  | .boolT, .boolV b => .ok [if b then 1 else 0]
  | .enumT _, .intV i =>
    if -(2 ^ 31 : Int) ≤ i ∧ i < 2 ^ 31 then .ok (encodeIntLE 4 i)
    else .error .rangeError
  | _, _ => .error .typeMismatch

/-- Decode a scalar slot. -/
def decodeScalar : TypeRef → Bytes → Value
  | .int w true, bs => .intV (decodeIntLE w bs)
  | .int _ false, bs => .intV (decodeLE bs)
  | .boolT, bs => .boolV (decodeLE bs != 0)
  | .enumT _, bs => .intV (decodeIntLE 4 bs)
  | _, _ => .boolV false

/-- The packed form of one inline slot: a scalar's bytes, a pointer with its
out-of-line blob, or a union's inline 16-byte encoding (scalar payload or
pointer payload with blob). -/
inductive ItemEnc where
  | scalar (bytes : Bytes)
  | ptr (blob : Bytes)
  | unionSc (tag : Nat) (payload : Bytes)
  | unionPtr (tag : Nat) (blob : Bytes)

/-- The out-of-line bytes an item contributes. -/
def ItemEnc.blobBytes : ItemEnc → Bytes
  | .scalar _ => []
  | .ptr b => b
  | .unionSc _ _ => []
  | .unionPtr _ b => b

/-- The inline slot bytes of an item, given the absolute start `start` of its
out-of-line blob and its own slot offset `off`; pointers hold the relative
byte offset from the slot's own address to the blob's start. -/
def ItemEnc.slotBytes : ItemEnc → Nat → Nat → Bytes
  | .scalar bs, _, _ => bs
  | .ptr _, start, off => encodeLE 8 (start - off)
  | .unionSc tag pay, _, _ => encodeLE 4 16 ++ encodeLE 4 tag ++ pay
  | .unionPtr tag _, start, off => encodeLE 4 16 ++ encodeLE 4 tag ++ encodeLE 8 (start - (off + 8))

/-- Lay out a list of packed items: returns the inline region (from `cur`)
and the concatenated out-of-line region; `bs` is the absolute offset where
the first blob will land.  `aligned` selects struct-style alignment (each
slot aligned to its own size) versus array-style tight packing. -/
def buildInline (aligned : Bool) : List (TypeRef × ItemEnc) → Nat → Nat → Bytes × Bytes
  | [], _, _ => ([], [])
  | (t, it) :: rest, cur, bs =>
    let o := if aligned then alignTo (slotAlign t) cur else cur
    let slot := it.slotBytes bs o
    let r := buildInline aligned rest (o + slotSize t) (bs + it.blobBytes.length)
    (List.replicate (o - cur) 0 ++ slot ++ r.1, it.blobBytes ++ r.2)

/-- End offset of the inline region `buildInline` lays out from `cur`. -/
def itemsEnd (aligned : Bool) : List (TypeRef × ItemEnc) → Nat → Nat
  | [], cur => cur
  | (t, _) :: rest, cur =>
    itemsEnd aligned rest ((if aligned then alignTo (slotAlign t) cur else cur) + slotSize t)

mutual

/-- `pack(type_ref, value)` for one self-contained wire region: structs are a
fixed-size header (4-byte total byte size of this version, 4-byte version)
followed by inline fields in ordinal order with out-of-line data appended;
strings and arrays are a 4-byte element count followed by tightly packed
elements, the region padded to 8 bytes; unions are their 16-byte inline
encoding followed by any out-of-line payload; scalars are their own bytes. -/
def packBlob (t : TypeRef) (v : Value) : Except CodecError Bytes :=
  match t, v with
  | .stringT, .strV s =>
    if s.length < 2 ^ 32 ∧ s.all (fun b => b < 256) then
      .ok (encodeLE 4 s.length ++ s ++ List.replicate (alignTo 8 (4 + s.length) - (4 + s.length)) 0)
    else .error .rangeError
  | .stringT, _ => .error .typeMismatch
  | .arrayT e, .arrV vs =>
    match packArrayItems e vs with
    | .ok items =>
      if vs.length < 2 ^ 32 then
        let body := 4 + vs.length * slotSize e
        let L := alignTo 8 body
        let r := buildInline false items 4 L
        .ok (encodeLE 4 vs.length ++ r.1 ++ List.replicate (L - body) 0 ++ r.2)
      else .error .rangeError
    | .error e => .error e
  | .arrayT _, _ => .error .typeMismatch
  | .structT ver fs, .structV vs =>
    match packFieldItems ver fs vs with
    | .ok items =>
      let endo := layoutEnd ver 8 fs
      let L := alignTo 8 endo
      if L < 2 ^ 32 ∧ ver < 2 ^ 32 then
        let r := buildInline true items 8 L
        .ok (encodeLE 4 L ++ encodeLE 4 ver ++ r.1 ++ List.replicate (L - endo) 0 ++ r.2)
      else .error .rangeError
    | .error e => .error e
  | .structT _ _, _ => .error .typeMismatch
  | .unionT ms, .unionV tag pv =>
    match packUnionItem ms tag pv with
    | .ok it => .ok (it.slotBytes 16 0 ++ it.blobBytes)
    | .error e => .error e
  | .unionT _, _ => .error .typeMismatch
  | t, v => packScalar t v
termination_by (sizeOf t, 0)

/-- Pack one value into its inline-slot form. -/
def packItem (t : TypeRef) (v : Value) : Except CodecError ItemEnc :=
  match t, v with
  | .stringT, v => Except.map ItemEnc.ptr (packBlob .stringT v)
  | .arrayT e, v => Except.map ItemEnc.ptr (packBlob (.arrayT e) v)
  | .structT ver fs, v => Except.map ItemEnc.ptr (packBlob (.structT ver fs) v)
  | .unionT ms, .unionV tag pv => packUnionItem ms tag pv
  | .unionT _, _ => .error .typeMismatch
  | t, v => Except.map ItemEnc.scalar (packScalar t v)
termination_by (sizeOf t, 1)

/-- Find the union member with the active tag and pack its payload: inline
when the member is a scalar, an out-of-line pointer otherwise. -/
def packUnionItem (ms : List (Nat × TypeRef)) (tag : Nat) (v : Value) :
    Except CodecError ItemEnc :=
  match ms with
  | [] => .error .typeMismatch
  | (mtag, mt) :: rest =>
    if mtag = tag then
      if isScalar mt then
        match packScalar mt v with
        | .ok bs => .ok (.unionSc tag (bs ++ List.replicate (8 - bs.length) 0))
        | .error e => .error e
      else
        match packBlob mt v with
        | .ok b => .ok (.unionPtr tag b)
        | .error e => .error e
    else packUnionItem rest tag v
termination_by (sizeOf ms, 2)

/-- Pack the struct fields visible at version `ver` against the value list;
fields introduced after `ver` are omitted entirely. -/
def packFieldItems (ver : Nat) (fs : List (Nat × TypeRef)) (vs : List Value) :
    Except CodecError (List (TypeRef × ItemEnc)) :=
  match fs, vs with
  | [], [] => .ok []
  | [], _ :: _ => .error .typeMismatch
  | (mv, t) :: rest, vs =>
    if ver < mv then packFieldItems ver rest vs
    else
      match vs with
      | [] => .error .typeMismatch
      | v :: vtl =>
        match packItem t v with
        | .ok it =>
          match packFieldItems ver rest vtl with
          | .ok items => .ok ((t, it) :: items)
          | .error e => .error e
        | .error e => .error e
termination_by (sizeOf fs, 2)

/-- Pack each array element into its slot form. -/
def packArrayItems (e : TypeRef) (vs : List Value) :
    Except CodecError (List (TypeRef × ItemEnc)) :=
  match vs with
  | [] => .ok []
  | v :: vtl =>
    match packItem e v with
    | .ok it =>
      match packArrayItems e vtl with
      | .ok items => .ok ((e, it) :: items)
      | .error e1 => .error e1
    | .error e1 => .error e1
termination_by (sizeOf e, 2 + vs.length)

end

/-- `pack(type_ref, value, ast_context) -> bytes | Error`. -/
def pack (t : TypeRef) (v : Value) : Except CodecError Bytes := packBlob t v

/-- Read the 8-byte relative pointer at `off`, validate it (8-byte aligned
and inside the buffer — `CorruptPointerError` otherwise) and return the
buffer suffix starting at its target. -/
def followPointer (buf : Bytes) (off : Nat) : Except CodecError Bytes :=
  match readAt buf off 8 with
  | some bs =>
    let target := off + decodeLE bs
    if target % 8 = 0 then
      if target < buf.length then .ok (buf.drop target)
      else .error .corruptPointer
    else .error .corruptPointer
  | none => .error .bufferTooShort

mutual

/-- `deparse` of one self-contained wire region (the strict inverse of
`packBlob`): validates rather than assumes well-formedness. -/
def deparseBlob (t : TypeRef) (buf : Bytes) : Except CodecError Value :=
  match t with
  | .stringT =>
    match readAt buf 0 4 with
    | some cb =>
      match readAt buf 4 (decodeLE cb) with
      | some s => .ok (.strV s)
      | none => .error .bufferTooShort
    | none => .error .bufferTooShort
  | .arrayT e =>
    match readAt buf 0 4 with
    | some cb =>
      match deparseElems e (decodeLE cb) buf 4 with
      | .ok vs => .ok (.arrV vs)
      | .error e1 => .error e1
    | none => .error .bufferTooShort
  | .structT _ fs =>
    match readAt buf 0 4, readAt buf 4 4 with
    | some sb, some vb =>
      let size := decodeLE sb
      let hver := decodeLE vb
      if buf.length < size then .error .bufferTooShort
      else if size < alignTo 8 (layoutEnd hver 8 fs) then .error .bufferTooShort
      else
        match deparseFields hver fs buf size 8 with
        | .ok vs => .ok (.structV vs)
        | .error e1 => .error e1
    | _, _ => .error .bufferTooShort
  | .unionT ms =>
    match readAt buf 0 4, readAt buf 4 4 with
    | some _, some tagB => deparseUnionPayload ms (decodeLE tagB) buf 8
    | _, _ => .error .bufferTooShort
  | t =>
    match readAt buf 0 (slotSize t) with
    | some bs => .ok (decodeScalar t bs)
    | none => .error .bufferTooShort
termination_by (sizeOf t, 0)

/-- Read one inline slot at offset `off` of `buf`: scalars decode in place;
pointer slots hold a relative offset which is validated (8-byte aligned,
inside the buffer — `CorruptPointerError` otherwise) and followed; union
slots read their 16-byte inline encoding. -/
def deparseSlot (t : TypeRef) (buf : Bytes) (off : Nat) : Except CodecError Value :=
  match t with
  | .stringT =>
    match followPointer buf off with
    | .ok sub => deparseBlob .stringT sub
    | .error e1 => .error e1
  | .arrayT e =>
    match followPointer buf off with
    | .ok sub => deparseBlob (.arrayT e) sub
    | .error e1 => .error e1
  | .structT ver fs =>
    match followPointer buf off with
    | .ok sub => deparseBlob (.structT ver fs) sub
    | .error e1 => .error e1
  | .unionT ms =>
    match readAt buf off 4, readAt buf (off + 4) 4 with
    | some _, some tagB => deparseUnionPayload ms (decodeLE tagB) buf (off + 8)
    | _, _ => .error .bufferTooShort
  | t =>
    match readAt buf off (slotSize t) with
    | some bs => .ok (decodeScalar t bs)
    | none => .error .bufferTooShort
termination_by (sizeOf t, 1)

/-- Find the union member selected by the 4-byte tag and decode its payload
at `payOff`; a tag with no matching member is `UnknownTagError`. -/
def deparseUnionPayload (ms : List (Nat × TypeRef)) (tag : Nat) (buf : Bytes) (payOff : Nat) :
    Except CodecError Value :=
  match ms with
  | [] => .error .unknownTag
  | (mtag, mt) :: rest =>
    if mtag = tag then
      if isScalar mt then
        match readAt buf payOff (slotSize mt) with
        | some bs => .ok (.unionV tag (decodeScalar mt bs))
        | none => .error .bufferTooShort
      else
        match followPointer buf payOff with
        | .ok sub =>
          match deparseBlob mt sub with
          | .ok v => .ok (.unionV tag v)
          | .error e1 => .error e1
        | .error e1 => .error e1
    else deparseUnionPayload rest tag buf payOff
termination_by (sizeOf ms, 2)

/-- Decode the struct fields visible at header version `hver` in ordinal
order from offset `cur`; a field whose slot lies beyond the header's declared
byte size — and every field after it — is treated as absent (the
forward-compatible skip), not an error. -/
def deparseFields (hver : Nat) (fs : List (Nat × TypeRef)) (buf : Bytes) (size cur : Nat) :
    Except CodecError (List Value) :=
  match fs with
  | [] => .ok []
  | (mv, t) :: rest =>
    if hver < mv then deparseFields hver rest buf size cur
    else
      let o := alignTo (slotAlign t) cur
      if size < o + slotSize t then .ok []
      else
        match deparseSlot t buf o with
        | .ok v =>
          match deparseFields hver rest buf size (o + slotSize t) with
          | .ok vs => .ok (v :: vs)
          | .error e1 => .error e1
        | .error e1 => .error e1
termination_by (sizeOf fs, 2)

/-- Decode `n` tightly packed array elements starting at offset `cur`. -/
def deparseElems (e : TypeRef) (n : Nat) (buf : Bytes) (cur : Nat) :
    Except CodecError (List Value) :=
  match n with
  | 0 => .ok []
  | n1 + 1 =>
    match deparseSlot e buf cur with
    | .ok v =>
      match deparseElems e n1 buf (cur + slotSize e) with
      | .ok vs => .ok (v :: vs)
      | .error e1 => .error e1
    | .error e1 => .error e1
termination_by (sizeOf e, 2 + n)

end

/-- `deparse(type_ref, bytes, ast_context) -> Value | Error`. -/
def deparse (t : TypeRef) (buf : Bytes) : Except CodecError Value := deparseBlob t buf

/-- A packed region is small enough for its size/offset fields: the blob the
value packs to exists and is under `2^32` bytes (struct byte sizes and
element counts are 4-byte fields, and all wire messages are bounded by
them). -/
def blobLenOk (t : TypeRef) (v : Value) : Bool :=
  match packBlob t v with
  | .ok b => decide (b.length < 2 ^ 32)
  | .error _ => false

mutual

/-- The representable `(TypeRef, Value)` pairs: the value's shape matches the
type, integers fit their target width, strings are byte sequences, counts fit
the 4-byte count fields, and every composite packs to a bounded region. -/
def representable (t : TypeRef) (v : Value) : Bool :=
  match t, v with
  | .int w s, .intV i =>
    (w = 1 || w = 2 || w = 4 || w = 8) &&
    (if s then decide (-(2 ^ (8 * w - 1) : Int) ≤ i ∧ i < 2 ^ (8 * w - 1))
     else decide (0 ≤ i ∧ i < (2 ^ (8 * w) : Int)))
  | .boolT, .boolV _ => true
  | .enumT _, .intV i => decide (-(2 ^ 31 : Int) ≤ i ∧ i < 2 ^ 31)
  | .stringT, .strV s => decide (s.length < 2 ^ 32) && s.all (fun b => decide (b < 256))
  | .arrayT e, .arrV vs =>
    decide (vs.length < 2 ^ 32) && representableElems e vs && blobLenOk (.arrayT e) (.arrV vs)
  | .structT ver fs, .structV vs =>
    decide (ver < 2 ^ 32) && representableFields ver fs vs &&
      blobLenOk (.structT ver fs) (.structV vs)
  | .unionT ms, .unionV tag pv =>
    decide (tag < 2 ^ 32) && representableUnion ms tag pv &&
      blobLenOk (.unionT ms) (.unionV tag pv)
  | _, _ => false
termination_by (sizeOf t, 1)

/-- The value list matches, one-to-one, the fields visible at `ver`. -/
def representableFields (ver : Nat) (fs : List (Nat × TypeRef)) (vs : List Value) : Bool :=
  match fs, vs with
  | [], [] => true
  | [], _ :: _ => false
  | (mv, t) :: rest, vs =>
    if ver < mv then representableFields ver rest vs
    else
      match vs with
      | [] => false
      | v :: vtl => representable t v && representableFields ver rest vtl
termination_by (sizeOf fs, 2)

/-- Every element is representable at the element type. -/
def representableElems (e : TypeRef) (vs : List Value) : Bool :=
  match vs with
  | [] => true
  | v :: vtl => representable e v && representableElems e vtl
termination_by (sizeOf e, 2 + vs.length)

/-- The tag selects a member and the payload is representable at its type. -/
def representableUnion (ms : List (Nat × TypeRef)) (tag : Nat) (v : Value) : Bool :=
  match ms with
  | [] => false
  | (mtag, mt) :: rest =>
    if mtag = tag then representable mt v else representableUnion rest tag v
termination_by (sizeOf ms, 2)

end

/-- Resolution of a schema type name to a wire type (the `ast_context`
lookup of primitive type names). -/
def primTypeRef : String → Option TypeRef
  | "bool" => some .boolT
  | "int8" => some (.int 1 true)
  | "uint8" => some (.int 1 false)
  | "int16" => some (.int 2 true)
  | "uint16" => some (.int 2 false)
  | "int32" => some (.int 4 true)
  | "uint32" => some (.int 4 false)
  | "int64" => some (.int 8 true)
  | "uint64" => some (.int 8 false)
  | "string" => some .stringT
  | _ => none

/-- The `(minVersion, resolved type)` slots of a parsed field list, in
declaration order. -/
def fieldSlots : List PField → Option (List (Nat × TypeRef))
  | [] => some []
  | f :: rest =>
    match primTypeRef f.typeName, fieldSlots rest with
    | some t, some tl => some ((f.minVersion, t) :: tl)
    | _, _ => none

/-- The wire `TypeRef` a parsed declaration denotes: a struct at version 0
over its resolved field slots, or an enum over its assigned values. -/
def declTypeRef : Decl → Option TypeRef
  | .structD _ fields => (fieldSlots fields).map (TypeRef.structT 0)
  | .unionD _ _ => none
  | .enumD _ vals => some (.enumT (vals.map (fun v => v.value)))

end Mojom

namespace Mojom

/-! ## Byte-primitive lemmas -/

@[simp] theorem encodeLE_length (n v : Nat) : (encodeLE n v).length = n := by
  induction n generalizing v with
  | zero => rfl
  | succ n ih => simp [encodeLE, ih]

theorem decodeLE_encodeLE (n v : Nat) : decodeLE (encodeLE n v) = v % 256 ^ n := by
  induction n generalizing v with
  | zero => simp [encodeLE, decodeLE, Nat.mod_one]
  | succ n ih =>
    simp only [encodeLE, decodeLE, ih]
    rw [pow_succ', Nat.mod_mul]

theorem encodeLE_lt (n v : Nat) : ∀ b ∈ encodeLE n v, b < 256 := by
  induction n generalizing v with
  | zero => simp [encodeLE]
  | succ n ih =>
    intro b hb
    simp only [encodeLE, List.mem_cons] at hb
    rcases hb with h | h
    · subst h; exact Nat.mod_lt _ (by norm_num)
    · exact ih _ _ h

@[simp] theorem encodeIntLE_length (n : Nat) (i : Int) : (encodeIntLE n i).length = n := by
  simp [encodeIntLE]

theorem encodeIntLE_lt (n : Nat) (i : Int) : ∀ b ∈ encodeIntLE n i, b < 256 :=
  fun b hb => encodeLE_lt _ _ b hb

theorem decodeIntLE_encodeIntLE (n : Nat) (i : Int) (hn : 0 < n)
    (hlo : -(2 ^ (8 * n - 1)) ≤ i) (hhi : i < 2 ^ (8 * n - 1)) :
    decodeIntLE n (encodeIntLE n i) = i := by
  have h256 : (256 : Nat) ^ n = 2 ^ (8 * n) := by
    rw [show (256 : Nat) = 2 ^ 8 from rfl, ← Nat.pow_mul]
  have hME : ((2 ^ (8 * n) : Nat) : Int) = 2 ^ (8 * n) := by push_cast; ring
  have hHE : ((2 ^ (8 * n - 1) : Nat) : Int) = 2 ^ (8 * n - 1) := by push_cast; ring
  have hMH : (2 : Int) ^ (8 * n) = 2 ^ (8 * n - 1) * 2 := by
    conv_lhs => rw [show (8 : Nat) * n = (8 * n - 1) + 1 by omega]
    rw [pow_succ]
  have hpos : (0 : Int) < 2 ^ (8 * n) := by positivity
  have hnonneg : (0 : Int) ≤ i % (2 ^ (8 * n) : Int) := Int.emod_nonneg i (by positivity)
  have hltmod : i % (2 ^ (8 * n) : Int) < 2 ^ (8 * n) := Int.emod_lt_of_pos i hpos
  have htn : (((i % (2 ^ (8 * n) : Int)).toNat : Nat) : Int) = i % (2 ^ (8 * n) : Int) :=
    Int.toNat_of_nonneg hnonneg
  have humod : (i % (2 ^ (8 * n) : Int)).toNat % 2 ^ (8 * n) = (i % (2 ^ (8 * n) : Int)).toNat := by
    apply Nat.mod_eq_of_lt
    have h1 : ((i % (2 ^ (8 * n) : Int)).toNat : Int) < ((2 ^ (8 * n) : Nat) : Int) := by
      rw [htn, hME]; exact hltmod
    exact_mod_cast h1
  unfold decodeIntLE encodeIntLE
  show (if decodeLE (encodeLE n (i.emod (2 ^ (8 * n))).toNat) < 2 ^ (8 * n - 1) then _ else _) = i
  rw [decodeLE_encodeLE, h256]
  have hmod : i.emod (2 ^ (8 * n)) = i % (2 ^ (8 * n) : Int) := rfl
  rw [hmod, humod]
  by_cases hcase : 0 ≤ i
  · have hieq : i % (2 ^ (8 * n) : Int) = i := Int.emod_eq_of_lt hcase (by omega)
    rw [if_pos]
    · rw [htn, hieq]
    · have h1 : ((i % (2 ^ (8 * n) : Int)).toNat : Int) < ((2 ^ (8 * n - 1) : Nat) : Int) := by
        rw [htn, hieq, hHE]; exact hhi
      exact_mod_cast h1
  · push_neg at hcase
    have hieq : i % (2 ^ (8 * n) : Int) = i + 2 ^ (8 * n) := by
      have h1 : (i + 2 ^ (8 * n) * 1) % (2 ^ (8 * n) : Int) = i % (2 ^ (8 * n) : Int) :=
        Int.add_mul_emod_self_left i (2 ^ (8 * n)) 1
      have h2 : (i + 2 ^ (8 * n)) % (2 ^ (8 * n) : Int) = i + 2 ^ (8 * n) :=
        Int.emod_eq_of_lt (by omega) (by omega)
      rw [← h2]; rw [mul_one] at h1; rw [h1]
    rw [if_neg]
    · rw [htn, hieq]; ring
    · push_neg
      have h1 : ((2 ^ (8 * n - 1) : Nat) : Int) ≤ ((i % (2 ^ (8 * n) : Int)).toNat : Int) := by
        rw [htn, hieq, hHE]; omega
      exact_mod_cast h1

@[simp] theorem readAt_length {buf : Bytes} {off n : Nat} {bs : Bytes}
    (h : readAt buf off n = some bs) : bs.length = n := by
  unfold readAt at h
  split at h
  · cases h
    simp only [List.length_take, List.length_drop]
    omega
  · cases h

theorem readAt_some {buf : Bytes} {off n : Nat} (h : off + n ≤ buf.length) :
    readAt buf off n = some ((buf.drop off).take n) := by
  unfold readAt
  rw [if_pos h]

theorem readAt_none {buf : Bytes} {off n : Nat} (h : buf.length < off + n) :
    readAt buf off n = none := by
  unfold readAt
  rw [if_neg (by omega)]

/-- Reading inside a known prefix region: if `buf = pre ++ seg ++ post` then
reading `seg.length` bytes at `pre.length` returns `seg`. -/
theorem readAt_append (pre seg post : Bytes) :
    readAt (pre ++ seg ++ post) pre.length seg.length = some seg := by
  unfold readAt
  rw [if_pos (by simp only [List.length_append]; omega)]
  rw [List.append_assoc, List.drop_left, List.take_left]

end Mojom

namespace Mojom

/-! ## Alignment and layout lemmas -/

theorem alignTo_le (a n : Nat) : n ≤ alignTo a n := Nat.le_add_right _ _

theorem alignTo_lt (a n : Nat) (ha : 0 < a) : alignTo a n < n + a := by
  unfold alignTo
  have : (a - n % a) % a < a := Nat.mod_lt _ ha
  omega

theorem alignTo_dvd (a n : Nat) (ha : 0 < a) : a ∣ alignTo a n := by
  unfold alignTo
  rcases Nat.eq_zero_or_pos (n % a) with h | h
  · rw [h, Nat.sub_zero, Nat.mod_self, Nat.add_zero]
    exact Nat.dvd_of_mod_eq_zero h
  · have hlt : n % a < a := Nat.mod_lt _ ha
    rw [Nat.mod_eq_of_lt (by omega)]
    have hdm := Nat.div_add_mod n a
    have : n + (a - n % a) = a * (n / a) + a := by omega
    rw [this]
    exact Dvd.dvd.add (Dvd.intro _ rfl) dvd_rfl

theorem alignTo_eq_self (a n : Nat) (h : a ∣ n) : alignTo a n = n := by
  unfold alignTo
  rcases Nat.eq_zero_or_pos a with rfl | ha
  · simp
  · rw [Nat.mod_eq_zero_of_dvd h, Nat.sub_zero, Nat.mod_self, Nat.add_zero]

theorem layoutEnd_le (ver : Nat) (fs : List (Nat × TypeRef)) :
    ∀ cur, cur ≤ layoutEnd ver cur fs := by
  induction fs with
  | nil => intro cur; simp [layoutEnd]
  | cons f rest ih =>
    intro cur
    obtain ⟨mv, t⟩ := f
    by_cases h : ver < mv
    · simpa [layoutEnd, h] using ih cur
    · have h2 := ih (alignTo (slotAlign t) cur + slotSize t)
      have h3 := alignTo_le (slotAlign t) cur
      simp only [layoutEnd, if_neg h]
      omega

theorem layoutEnd_append (ver : Nat) (fs gs : List (Nat × TypeRef)) :
    ∀ cur, layoutEnd ver cur (fs ++ gs) = layoutEnd ver (layoutEnd ver cur fs) gs := by
  induction fs with
  | nil => intro cur; simp [layoutEnd]
  | cons f rest ih =>
    intro cur
    obtain ⟨mv, t⟩ := f
    by_cases h : ver < mv <;> simp [layoutEnd, h, ih]

/-! ## Sub-read lemmas -/

theorem readAt_sub {buf bs : Bytes} {o n : Nat} (h : readAt buf o n = some bs)
    (k m : Nat) (hkm : k + m ≤ n) :
    readAt buf (o + k) m = some ((bs.drop k).take m) := by
  unfold readAt at h ⊢
  split at h
  · rename_i hle
    cases h
    rw [if_pos (by omega)]
    congr 1
    rw [List.drop_take, List.drop_drop, List.take_take]
    congr 1
    omega
  · cases h

theorem readAt_append_left {b : Bytes} (extra : Bytes) {o n : Nat} (h : o + n ≤ b.length) :
    readAt (b ++ extra) o n = readAt b o n := by
  unfold readAt
  rw [if_pos (by simp only [List.length_append]; omega), if_pos h]
  rw [List.drop_append_of_le_length (by omega)]
  rw [List.take_append_of_le_length (by simp only [List.length_drop]; omega)]

theorem readAt_prefix {b : Bytes} (extra : Bytes) {n : Nat} (h : n ≤ b.length) :
    readAt (b ++ extra) 0 n = some (b.take n) := by
  rw [show (0 : Nat) = 0 + 0 from rfl] at *
  rw [readAt_append_left extra (by omega)]
  unfold readAt
  rw [if_pos (by omega)]
  simp

end Mojom

namespace Mojom

/-! ## Scalar pack/decode lemmas -/

theorem packScalar_length {t : TypeRef} {v : Value} {bs : Bytes}
    (h : packScalar t v = .ok bs) : bs.length = slotSize t := by
  cases t with
  | int w s =>
    cases v with
    | intV i =>
      cases s <;> simp only [packScalar] at h <;> split at h <;> cases h <;> simp [slotSize]
    | boolV b => exact absurd h (by simp [packScalar])
    | strV s1 => exact absurd h (by simp [packScalar])
    | arrV vs => exact absurd h (by simp [packScalar])
    | structV vs => exact absurd h (by simp [packScalar])
    | unionV tg pv => exact absurd h (by simp [packScalar])
  | boolT =>
    cases v with
    | boolV b =>
      simp only [packScalar] at h
      cases h
      simp [slotSize]
    | intV i => exact absurd h (by simp [packScalar])
    | strV s1 => exact absurd h (by simp [packScalar])
    | arrV vs => exact absurd h (by simp [packScalar])
    | structV vs => exact absurd h (by simp [packScalar])
    | unionV tg pv => exact absurd h (by simp [packScalar])
  | enumT es =>
    cases v with
    | intV i =>
      simp only [packScalar] at h
      split at h
      · cases h; simp [slotSize]
      · exact absurd h (by simp)
    | boolV b => exact absurd h (by simp [packScalar])
    | strV s1 => exact absurd h (by simp [packScalar])
    | arrV vs => exact absurd h (by simp [packScalar])
    | structV vs => exact absurd h (by simp [packScalar])
    | unionV tg pv => exact absurd h (by simp [packScalar])
  | stringT => exact absurd h (by cases v <;> simp [packScalar])
  | arrayT e => exact absurd h (by cases v <;> simp [packScalar])
  | structT ver fs => exact absurd h (by cases v <;> simp [packScalar])
  | unionT ms => exact absurd h (by cases v <;> simp [packScalar])

theorem representable_int_width {w : Nat} {s : Bool} {v : Value}
    (hr : representable (.int w s) v = true) : w = 1 ∨ w = 2 ∨ w = 4 ∨ w = 8 := by
  cases v <;> simp only [representable] at hr <;> try cases hr
  rename_i i
  simp only [Bool.and_eq_true, Bool.or_eq_true, decide_eq_true_eq] at hr
  tauto

theorem isScalar_slotSize_le {t : TypeRef} {v : Value}
    (hr : representable t v = true) (hs : isScalar t = true) :
    0 < slotSize t ∧ slotSize t ≤ 8 := by
  cases t with
  | int w s =>
    have hw := representable_int_width hr
    simp only [slotSize]
    omega
  | boolT => simp [slotSize]
  | enumT es => simp [slotSize]
  | stringT => simp [isScalar] at hs
  | arrayT e => simp [isScalar] at hs
  | structT ver fs => simp [isScalar] at hs
  | unionT ms => simp [isScalar] at hs

theorem packScalar_roundtrip {t : TypeRef} {v : Value} {bs : Bytes}
    (hr : representable t v = true) (h : packScalar t v = .ok bs) :
    decodeScalar t bs = v := by
  cases t with
  | int w s =>
    cases v with
    | intV i =>
      have hw : 0 < w := by have := representable_int_width hr; omega
      cases s
      · simp only [packScalar] at h
        split at h
        · cases h
          rename_i hb
          simp only [decodeScalar, encodeIntLE]
          have h0 : (0 : Int) ≤ i := hb.1
          have hlt : i < 2 ^ (8 * w) := hb.2
          have hmod : i.emod (2 ^ (8 * w)) = i := by
            apply Int.emod_eq_of_lt h0
            exact_mod_cast hlt
          rw [hmod, decodeLE_encodeLE]
          have h2 : (256 : Nat) ^ w = 2 ^ (8 * w) := by
            rw [show (256 : Nat) = 2 ^ 8 from rfl, ← Nat.pow_mul]
          have h3 : i.toNat < 2 ^ (8 * w) := by
            have h5 : ((i.toNat : Int)) = i := Int.toNat_of_nonneg h0
            have h4 : ((i.toNat : Int)) < ((2 ^ (8 * w) : Nat) : Int) := by
              rw [h5]; exact_mod_cast hlt
            exact_mod_cast h4
          rw [h2, Nat.mod_eq_of_lt h3]
          congr 1
          exact Int.toNat_of_nonneg h0
        · exact absurd h (by simp)
      · simp only [packScalar] at h
        split at h
        · cases h
          rename_i hb
          simp only [decodeScalar]
          exact congrArg Value.intV (decodeIntLE_encodeIntLE w i hw hb.1 hb.2)
        · exact absurd h (by simp)
    | boolV b => exact absurd h (by simp [packScalar])
    | strV s1 => exact absurd h (by simp [packScalar])
    | arrV vs => exact absurd h (by simp [packScalar])
    | structV vs => exact absurd h (by simp [packScalar])
    | unionV tg pv => exact absurd h (by simp [packScalar])
  | boolT =>
    cases v with
    | boolV b =>
      simp only [packScalar] at h
      cases h
      cases b <;> simp [decodeScalar, decodeLE]
    | intV i => exact absurd h (by simp [packScalar])
    | strV s1 => exact absurd h (by simp [packScalar])
    | arrV vs => exact absurd h (by simp [packScalar])
    | structV vs => exact absurd h (by simp [packScalar])
    | unionV tg pv => exact absurd h (by simp [packScalar])
  | enumT es =>
    cases v with
    | intV i =>
      simp only [packScalar] at h
      split at h
      · cases h
        rename_i hb
        simp only [decodeScalar]
        exact congrArg Value.intV (decodeIntLE_encodeIntLE 4 i (by norm_num) hb.1 hb.2)
      · exact absurd h (by simp)
    | boolV b => exact absurd h (by simp [packScalar])
    | strV s1 => exact absurd h (by simp [packScalar])
    | arrV vs => exact absurd h (by simp [packScalar])
    | structV vs => exact absurd h (by simp [packScalar])
    | unionV tg pv => exact absurd h (by simp [packScalar])
  | stringT => exact absurd h (by cases v <;> simp [packScalar])
  | arrayT e => exact absurd h (by cases v <;> simp [packScalar])
  | structT ver fs => exact absurd h (by cases v <;> simp [packScalar])
  | unionT ms => exact absurd h (by cases v <;> simp [packScalar])

theorem representable_packScalar {t : TypeRef} {v : Value}
    (hr : representable t v = true) (hs : isScalar t = true) :
    ∃ bs, packScalar t v = .ok bs := by
  cases t with
  | int w s =>
    cases v <;> simp only [representable] at hr <;> try cases hr
    rename_i i
    simp only [Bool.and_eq_true, decide_eq_true_eq] at hr
    cases s
    · simp only [Bool.false_eq_true, if_false, decide_eq_true_eq] at hr
      exact ⟨encodeIntLE w i, by simp only [packScalar, if_pos hr.2]⟩
    · simp only [if_true, decide_eq_true_eq] at hr
      exact ⟨encodeIntLE w i, by simp only [packScalar, if_pos hr.2]⟩
  | boolT =>
    cases v <;> simp only [representable] at hr <;> try cases hr
    exact ⟨_, rfl⟩
  | enumT es =>
    cases v <;> simp only [representable] at hr <;> try cases hr
    rename_i i
    simp only [decide_eq_true_eq] at hr
    exact ⟨encodeIntLE 4 i, by simp only [packScalar, if_pos hr]⟩
  | stringT => simp [isScalar] at hs
  | arrayT e => simp [isScalar] at hs
  | structT ver fs => simp [isScalar] at hs
  | unionT ms => simp [isScalar] at hs

end Mojom

namespace Mojom

/-! ## Inline-layout lemmas -/

theorem itemsEnd_le (a : Bool) (items : List (TypeRef × ItemEnc)) :
    ∀ cur, cur ≤ itemsEnd a items cur := by
  induction items with
  | nil => intro cur; simp [itemsEnd]
  | cons p rest ih =>
    intro cur
    obtain ⟨t, it⟩ := p
    cases a
    · have h2 := ih (cur + slotSize t)
      simp only [itemsEnd, Bool.false_eq_true, if_false]
      omega
    · have h2 := ih (alignTo (slotAlign t) cur + slotSize t)
      have h3 := alignTo_le (slotAlign t) cur
      simp only [itemsEnd, if_true]
      omega

theorem buildInline_fst_length (a : Bool) (items : List (TypeRef × ItemEnc))
    (hs : ∀ p ∈ items, ∀ s o, ((p.2).slotBytes s o).length = slotSize p.1) :
    ∀ cur bs, (buildInline a items cur bs).1.length = itemsEnd a items cur - cur := by
  induction items with
  | nil => intro cur bs; simp [buildInline, itemsEnd]
  | cons p rest ih =>
    intro cur bs
    obtain ⟨t, it⟩ := p
    have hhead := hs (t, it) (by simp)
    have htail : ∀ p ∈ rest, ∀ s o, ((p.2).slotBytes s o).length = slotSize p.1 :=
      fun p hp => hs p (by simp [hp])
    have halign := alignTo_le (slotAlign t) cur
    cases a
    · have ihr := ih htail (cur + slotSize t) (bs + it.blobBytes.length)
      have hend := itemsEnd_le false rest (cur + slotSize t)
      simp only [buildInline, itemsEnd, Bool.false_eq_true, if_false, List.length_append,
        List.length_replicate, hhead, ihr]
      omega
    · have ihr := ih htail (alignTo (slotAlign t) cur + slotSize t) (bs + it.blobBytes.length)
      have hend := itemsEnd_le true rest (alignTo (slotAlign t) cur + slotSize t)
      simp only [buildInline, itemsEnd, if_true, List.length_append,
        List.length_replicate, hhead, ihr]
      omega

theorem buildInline_snd (a : Bool) (items : List (TypeRef × ItemEnc)) :
    ∀ cur bs cur2 bs2, (buildInline a items cur bs).2 = (buildInline a items cur2 bs2).2 := by
  induction items with
  | nil => intro cur bs cur2 bs2; simp [buildInline]
  | cons p rest ih =>
    intro cur bs cur2 bs2
    obtain ⟨t, it⟩ := p
    simp only [buildInline]
    rw [ih]

theorem buildInline_append (a : Bool) (xs ys : List (TypeRef × ItemEnc)) :
    ∀ cur bs,
      (buildInline a (xs ++ ys) cur bs).1 =
        (buildInline a xs cur bs).1 ++
          (buildInline a ys (itemsEnd a xs cur) (bs + (buildInline a xs cur bs).2.length)).1 ∧
      (buildInline a (xs ++ ys) cur bs).2 =
        (buildInline a xs cur bs).2 ++
          (buildInline a ys (itemsEnd a xs cur) (bs + (buildInline a xs cur bs).2.length)).2 := by
  induction xs with
  | nil => intro cur bs; simp [buildInline, itemsEnd]
  | cons p rest ih =>
    intro cur bs
    obtain ⟨t, it⟩ := p
    cases a
    · have ihr := ih (cur + slotSize t) (bs + it.blobBytes.length)
      simp only [List.cons_append, buildInline, itemsEnd, Bool.false_eq_true, if_false,
        List.length_append, List.append_eq]
      refine ⟨?_, ?_⟩
      · rw [ihr.1]
        simp only [List.append_assoc, Nat.add_assoc]
      · rw [ihr.2]
        simp only [List.append_assoc, Nat.add_assoc]
    · have ihr := ih (alignTo (slotAlign t) cur + slotSize t) (bs + it.blobBytes.length)
      simp only [List.cons_append, buildInline, itemsEnd, if_true, List.length_append,
        List.append_eq]
      refine ⟨?_, ?_⟩
      · rw [ihr.1]
        simp only [List.append_assoc, Nat.add_assoc]
      · rw [ihr.2]
        simp only [List.append_assoc, Nat.add_assoc]

end Mojom

namespace Mojom

/-! ## Slot-shape lemmas -/

theorem packUnionItem_slot_length {ms : List (Nat × TypeRef)} {tag : Nat} {pv : Value}
    {it : ItemEnc} (hr : representableUnion ms tag pv = true)
    (h : packUnionItem ms tag pv = .ok it) :
    ∀ s o, (it.slotBytes s o).length = 16 := by
  induction ms with
  | nil => simp [packUnionItem] at h
  | cons m rest ih =>
    obtain ⟨mtag, mt⟩ := m
    simp only [packUnionItem, representableUnion] at h hr
    by_cases he : mtag = tag
    · rw [if_pos he] at h hr
      by_cases hsc : isScalar mt = true
      · rw [if_pos hsc] at h
        match hps : packScalar mt pv with
        | .ok bs =>
          rw [hps] at h
          cases h
          intro s o
          have hlen := packScalar_length hps
          have hle := isScalar_slotSize_le hr hsc
          simp only [ItemEnc.slotBytes, List.length_append, List.length_replicate,
            encodeLE_length, hlen]
          omega
        | .error e1 => rw [hps] at h; cases h
      · rw [if_neg hsc] at h
        match hpb : packBlob mt pv with
        | .ok b =>
          rw [hpb] at h
          cases h
          intro s o
          simp [ItemEnc.slotBytes]
        | .error e1 => rw [hpb] at h; cases h
    · rw [if_neg he] at h hr
      exact ih hr h

theorem packItem_slot_length {t : TypeRef} {v : Value} {it : ItemEnc}
    (hr : representable t v = true) (h : packItem t v = .ok it) :
    ∀ s o, (it.slotBytes s o).length = slotSize t := by
  cases t with
  | int w s1 =>
    simp only [packItem] at h
    match hps : packScalar (.int w s1) v with
    | .ok bs =>
      rw [hps] at h
      cases h
      intro s o
      simpa [ItemEnc.slotBytes] using packScalar_length hps
    | .error e1 => rw [hps] at h; cases h
  | boolT =>
    simp only [packItem] at h
    match hps : packScalar .boolT v with
    | .ok bs =>
      rw [hps] at h
      cases h
      intro s o
      simpa [ItemEnc.slotBytes] using packScalar_length hps
    | .error e1 => rw [hps] at h; cases h
  | enumT es =>
    simp only [packItem] at h
    match hps : packScalar (.enumT es) v with
    | .ok bs =>
      rw [hps] at h
      cases h
      intro s o
      simpa [ItemEnc.slotBytes] using packScalar_length hps
    | .error e1 => rw [hps] at h; cases h
  | stringT =>
    simp only [packItem] at h
    match hpb : packBlob .stringT v with
    | .ok b => rw [hpb] at h; cases h; intro s o; simp [ItemEnc.slotBytes, slotSize]
    | .error e1 => rw [hpb] at h; cases h
  | arrayT e =>
    simp only [packItem] at h
    match hpb : packBlob (.arrayT e) v with
    | .ok b => rw [hpb] at h; cases h; intro s o; simp [ItemEnc.slotBytes, slotSize]
    | .error e1 => rw [hpb] at h; cases h
  | structT ver fs =>
    simp only [packItem] at h
    match hpb : packBlob (.structT ver fs) v with
    | .ok b => rw [hpb] at h; cases h; intro s o; simp [ItemEnc.slotBytes, slotSize]
    | .error e1 => rw [hpb] at h; cases h
  | unionT ms =>
    cases v with
    | unionV tag pv =>
      simp only [packItem] at h
      simp only [representable, Bool.and_eq_true] at hr
      intro s o
      simpa [slotSize] using packUnionItem_slot_length hr.1.2 h s o
    | intV i => simp [packItem] at h
    | boolV b => simp [packItem] at h
    | strV s1 => simp [packItem] at h
    | arrV vs => simp [packItem] at h
    | structV vs => simp [packItem] at h

theorem packFieldItems_slot_length {ver : Nat} {fs : List (Nat × TypeRef)} {vs : List Value}
    {items : List (TypeRef × ItemEnc)}
    (hr : representableFields ver fs vs = true) (h : packFieldItems ver fs vs = .ok items) :
    ∀ p ∈ items, ∀ s o, ((p.2).slotBytes s o).length = slotSize p.1 := by
  induction fs generalizing vs items with
  | nil =>
    cases vs with
    | nil => simp only [packFieldItems] at h; cases h; simp
    | cons v vtl => simp [packFieldItems] at h
  | cons f rest ih =>
    obtain ⟨mv, t⟩ := f
    cases vs with
    | nil =>
      simp only [packFieldItems] at h
      simp only [representableFields] at hr
      by_cases hv : ver < mv
      · rw [if_pos hv] at h hr
        exact ih hr h
      · rw [if_neg hv] at hr
        cases hr
    | cons v vtl =>
      simp only [packFieldItems] at h
      simp only [representableFields] at hr
      by_cases hv : ver < mv
      · rw [if_pos hv] at h hr
        exact ih hr h
      · rw [if_neg hv] at h hr
        simp only [Bool.and_eq_true] at hr
        match hpi : packItem t v with
        | .ok it =>
          rw [hpi] at h
          match hrest : packFieldItems ver rest vtl with
          | .ok items2 =>
            rw [hrest] at h
            cases h
            intro p hp
            rcases List.mem_cons.mp hp with rfl | hp2
            · exact packItem_slot_length hr.1 hpi
            · exact ih hr.2 hrest p hp2
          | .error e1 => rw [hrest] at h; cases h
        | .error e1 => rw [hpi] at h; cases h

theorem packArrayItems_slot_length {e : TypeRef} {vs : List Value}
    {items : List (TypeRef × ItemEnc)}
    (hr : representableElems e vs = true) (h : packArrayItems e vs = .ok items) :
    ∀ p ∈ items, ∀ s o, ((p.2).slotBytes s o).length = slotSize p.1 := by
  induction vs generalizing items with
  | nil => simp only [packArrayItems] at h; cases h; simp
  | cons v vtl ih =>
    simp only [packArrayItems, representableElems, Bool.and_eq_true] at h hr
    match hpi : packItem e v with
    | .ok it =>
      rw [hpi] at h
      match hrest : packArrayItems e vtl with
      | .ok items2 =>
        rw [hrest] at h
        cases h
        intro p hp
        rcases List.mem_cons.mp hp with rfl | hp2
        · exact packItem_slot_length hr.1 hpi
        · exact ih hr.2 hrest p hp2
      | .error e1 => rw [hrest] at h; cases h
    | .error e1 => rw [hpi] at h; cases h

theorem packFieldItems_itemsEnd {ver : Nat} {fs : List (Nat × TypeRef)} {vs : List Value}
    {items : List (TypeRef × ItemEnc)} (h : packFieldItems ver fs vs = .ok items) :
    ∀ cur, itemsEnd true items cur = layoutEnd ver cur fs := by
  induction fs generalizing vs items with
  | nil =>
    cases vs with
    | nil => simp only [packFieldItems] at h; cases h; simp [itemsEnd, layoutEnd]
    | cons v vtl => simp [packFieldItems] at h
  | cons f rest ih =>
    obtain ⟨mv, t⟩ := f
    cases vs with
    | nil =>
      simp only [packFieldItems] at h
      by_cases hv : ver < mv
      · rw [if_pos hv] at h
        intro cur
        rw [layoutEnd, if_pos hv]
        exact ih h cur
      · rw [if_neg hv] at h
        cases h
    | cons v vtl =>
      simp only [packFieldItems] at h
      by_cases hv : ver < mv
      · rw [if_pos hv] at h
        intro cur
        rw [layoutEnd, if_pos hv]
        exact ih h cur
      · rw [if_neg hv] at h
        match hpi : packItem t v with
        | .ok it =>
          rw [hpi] at h
          match hrest : packFieldItems ver rest vtl with
          | .ok items2 =>
            rw [hrest] at h
            cases h
            intro cur
            rw [layoutEnd, if_neg hv]
            simp only [itemsEnd, if_true]
            exact ih hrest _
          | .error e1 => rw [hrest] at h; cases h
        | .error e1 => rw [hpi] at h; cases h

theorem packArrayItems_itemsEnd {e : TypeRef} {vs : List Value}
    {items : List (TypeRef × ItemEnc)} (h : packArrayItems e vs = .ok items) :
    ∀ cur, itemsEnd false items cur = cur + vs.length * slotSize e := by
  induction vs generalizing items with
  | nil => simp only [packArrayItems] at h; cases h; simp [itemsEnd]
  | cons v vtl ih =>
    simp only [packArrayItems] at h
    match hpi : packItem e v with
    | .ok it =>
      rw [hpi] at h
      match hrest : packArrayItems e vtl with
      | .ok items2 =>
        rw [hrest] at h
        cases h
        intro cur
        simp only [itemsEnd, Bool.false_eq_true, if_false, List.length_cons]
        rw [ih hrest]
        ring
      | .error e1 => rw [hrest] at h; cases h
    | .error e1 => rw [hpi] at h; cases h

theorem buildInline_snd_dvd {items : List (TypeRef × ItemEnc)}
    (hd : ∀ p ∈ items, 8 ∣ (p.2).blobBytes.length) (a : Bool) :
    ∀ cur bs, 8 ∣ (buildInline a items cur bs).2.length := by
  induction items with
  | nil => intro cur bs; simp [buildInline]
  | cons p rest ih =>
    intro cur bs
    obtain ⟨t, it⟩ := p
    have h1 := hd (t, it) (by simp)
    have h2 := ih (fun p hp => hd p (by simp [hp]))
    simp only [buildInline, List.length_append]
    exact Nat.dvd_add h1 (h2 _ _)

end Mojom

namespace Mojom

/-! ## Blob-shape lemmas: every out-of-line region is 8-byte padded -/

theorem blobLenOk_elim {t : TypeRef} {v : Value} (h : blobLenOk t v = true) :
    ∃ b, packBlob t v = .ok b ∧ b.length < 2 ^ 32 := by
  unfold blobLenOk at h
  match hpb : packBlob t v with
  | .ok b =>
    rw [hpb] at h
    exact ⟨b, rfl, by simpa using h⟩
  | .error e => rw [hpb] at h; cases h

mutual

theorem packBlob_shape : ∀ (t : TypeRef) (v : Value) (b : Bytes),
    representable t v = true → packBlob t v = .ok b → isScalar t = false →
    8 ≤ b.length ∧ 8 ∣ b.length := by
  intro t v b hr h hsc
  match t, v with
  | .stringT, .strV s =>
    simp only [packBlob] at h
    split at h
    · rename_i hc
      cases h
      have h1 := alignTo_le 8 (4 + s.length)
      have h2 := alignTo_dvd 8 (4 + s.length) (by norm_num)
      simp only [List.length_append, List.length_replicate, encodeLE_length]
      constructor
      · omega
      · have : 4 + s.length + (alignTo 8 (4 + s.length) - (4 + s.length)) =
            alignTo 8 (4 + s.length) := by omega
        omega
    · cases h
  | .stringT, .intV i => simp [packBlob] at h
  | .stringT, .boolV b1 => simp [packBlob] at h
  | .stringT, .arrV vs => simp [packBlob] at h
  | .stringT, .structV vs => simp [packBlob] at h
  | .stringT, .unionV tg pv => simp [packBlob] at h
  | .arrayT e, .arrV vs =>
    simp only [representable, Bool.and_eq_true] at hr
    simp only [packBlob] at h
    match hitems : packArrayItems e vs with
    | .ok items =>
      simp only [hitems] at h
      split at h
      · cases h
        have hsl := packArrayItems_slot_length hr.1.2 hitems
        have hfst := buildInline_fst_length false items hsl 4
          (alignTo 8 (4 + vs.length * slotSize e))
        have hie := packArrayItems_itemsEnd hitems 4
        have hal := alignTo_le 8 (4 + vs.length * slotSize e)
        have had := alignTo_dvd 8 (4 + vs.length * slotSize e) (by norm_num)
        have hbd := buildInline_snd_dvd
          (fun p hp => (packArrayItems_blob_shape e vs items hr.1.2 hitems p hp).1) false 4
          (alignTo 8 (4 + vs.length * slotSize e))
        simp only [List.length_append, List.length_replicate, encodeLE_length, hfst, hie]
        constructor
        · omega
        · have : 4 + (4 + vs.length * slotSize e - 4) +
              (alignTo 8 (4 + vs.length * slotSize e) - (4 + vs.length * slotSize e)) =
              alignTo 8 (4 + vs.length * slotSize e) := by omega
          omega
      · cases h
    | .error e1 => rw [hitems] at h; cases h
  | .arrayT e, .intV i => simp [packBlob] at h
  | .arrayT e, .boolV b1 => simp [packBlob] at h
  | .arrayT e, .strV s => simp [packBlob] at h
  | .arrayT e, .structV vs => simp [packBlob] at h
  | .arrayT e, .unionV tg pv => simp [packBlob] at h
  | .structT ver fs, .structV vs =>
    simp only [representable, Bool.and_eq_true] at hr
    simp only [packBlob] at h
    match hitems : packFieldItems ver fs vs with
    | .ok items =>
      simp only [hitems] at h
      split at h
      · cases h
        have hsl := packFieldItems_slot_length hr.1.2 hitems
        have hfst := buildInline_fst_length true items hsl 8 (alignTo 8 (layoutEnd ver 8 fs))
        have hie := packFieldItems_itemsEnd hitems 8
        have hle := layoutEnd_le ver fs 8
        have hal := alignTo_le 8 (layoutEnd ver 8 fs)
        have had := alignTo_dvd 8 (layoutEnd ver 8 fs) (by norm_num)
        have hbd := buildInline_snd_dvd
          (fun p hp => (packFieldItems_blob_shape ver fs vs items hr.1.2 hitems p hp).1) true 8
          (alignTo 8 (layoutEnd ver 8 fs))
        simp only [List.length_append, List.length_replicate, encodeLE_length, hfst, hie]
        constructor
        · omega
        · have : 4 + (4 + ((layoutEnd ver 8 fs - 8) +
              (alignTo 8 (layoutEnd ver 8 fs) - layoutEnd ver 8 fs))) =
              alignTo 8 (layoutEnd ver 8 fs) := by omega
          omega
      · cases h
    | .error e1 => rw [hitems] at h; cases h
  | .structT ver fs, .intV i => simp [packBlob] at h
  | .structT ver fs, .boolV b1 => simp [packBlob] at h
  | .structT ver fs, .strV s => simp [packBlob] at h
  | .structT ver fs, .arrV vs => simp [packBlob] at h
  | .structT ver fs, .unionV tg pv => simp [packBlob] at h
  | .unionT ms, .unionV tag pv =>
    simp only [representable, Bool.and_eq_true] at hr
    simp only [packBlob] at h
    match hit : packUnionItem ms tag pv with
    | .ok it =>
      rw [hit] at h
      cases h
      have hslot := packUnionItem_slot_length hr.1.2 hit 16 0
      have hbs := packUnionItem_blob_shape ms tag pv it hr.1.2 hit
      simp only [List.length_append, hslot]
      refine ⟨by omega, ?_⟩
      exact Nat.dvd_add (by norm_num) hbs.1
    | .error e1 => rw [hit] at h; cases h
  | .unionT ms, .intV i => simp [packBlob] at h
  | .unionT ms, .boolV b1 => simp [packBlob] at h
  | .unionT ms, .strV s => simp [packBlob] at h
  | .unionT ms, .arrV vs => simp [packBlob] at h
  | .unionT ms, .structV vs => simp [packBlob] at h
  | .int w s1, v => simp [isScalar] at hsc
  | .boolT, v => simp [isScalar] at hsc
  | .enumT es, v => simp [isScalar] at hsc
termination_by t v b => (sizeOf t, 0)

theorem packItem_blob_shape : ∀ (t : TypeRef) (v : Value) (it : ItemEnc),
    representable t v = true → packItem t v = .ok it →
    8 ∣ it.blobBytes.length ∧ (it.blobBytes = [] ∨ 8 ≤ it.blobBytes.length) := by
  intro t v it hr h
  match t with
  | .int w s1 =>
    simp only [packItem] at h
    match hps : packScalar (.int w s1) v with
    | .ok bs => rw [hps] at h; cases h; simp [ItemEnc.blobBytes]
    | .error e1 => rw [hps] at h; cases h
  | .boolT =>
    simp only [packItem] at h
    match hps : packScalar .boolT v with
    | .ok bs => rw [hps] at h; cases h; simp [ItemEnc.blobBytes]
    | .error e1 => rw [hps] at h; cases h
  | .enumT es =>
    simp only [packItem] at h
    match hps : packScalar (.enumT es) v with
    | .ok bs => rw [hps] at h; cases h; simp [ItemEnc.blobBytes]
    | .error e1 => rw [hps] at h; cases h
  | .stringT =>
    simp only [packItem] at h
    match hpb : packBlob .stringT v with
    | .ok b =>
      rw [hpb] at h
      cases h
      have := packBlob_shape .stringT v b hr hpb (by simp [isScalar])
      simp only [ItemEnc.blobBytes]
      exact ⟨this.2, Or.inr this.1⟩
    | .error e1 => rw [hpb] at h; cases h
  | .arrayT e =>
    simp only [packItem] at h
    match hpb : packBlob (.arrayT e) v with
    | .ok b =>
      rw [hpb] at h
      cases h
      have := packBlob_shape (.arrayT e) v b hr hpb (by simp [isScalar])
      simp only [ItemEnc.blobBytes]
      exact ⟨this.2, Or.inr this.1⟩
    | .error e1 => rw [hpb] at h; cases h
  | .structT ver fs =>
    simp only [packItem] at h
    match hpb : packBlob (.structT ver fs) v with
    | .ok b =>
      rw [hpb] at h
      cases h
      have := packBlob_shape (.structT ver fs) v b hr hpb (by simp [isScalar])
      simp only [ItemEnc.blobBytes]
      exact ⟨this.2, Or.inr this.1⟩
    | .error e1 => rw [hpb] at h; cases h
  | .unionT ms =>
    match v with
    | .unionV tag pv =>
      simp only [packItem] at h
      simp only [representable, Bool.and_eq_true] at hr
      exact packUnionItem_blob_shape ms tag pv it hr.1.2 h
    | .intV i => simp [packItem] at h
    | .boolV b1 => simp [packItem] at h
    | .strV s => simp [packItem] at h
    | .arrV vs => simp [packItem] at h
    | .structV vs => simp [packItem] at h
termination_by t v it => (sizeOf t, 1)

theorem packUnionItem_blob_shape : ∀ (ms : List (Nat × TypeRef)) (tag : Nat) (pv : Value)
    (it : ItemEnc),
    representableUnion ms tag pv = true → packUnionItem ms tag pv = .ok it →
    8 ∣ it.blobBytes.length ∧ (it.blobBytes = [] ∨ 8 ≤ it.blobBytes.length) := by
  intro ms tag pv it hr h
  match ms with
  | [] => simp [packUnionItem] at h
  | (mtag, mt) :: rest =>
    simp only [packUnionItem, representableUnion] at h hr
    by_cases he : mtag = tag
    · rw [if_pos he] at h hr
      by_cases hsc : isScalar mt = true
      · rw [if_pos hsc] at h
        match hps : packScalar mt pv with
        | .ok bs => rw [hps] at h; cases h; simp [ItemEnc.blobBytes]
        | .error e1 => rw [hps] at h; cases h
      · rw [if_neg hsc] at h
        match hpb : packBlob mt pv with
        | .ok b =>
          rw [hpb] at h
          cases h
          have := packBlob_shape mt pv b hr hpb (by simpa using hsc)
          simp only [ItemEnc.blobBytes]
          exact ⟨this.2, Or.inr this.1⟩
        | .error e1 => rw [hpb] at h; cases h
    · rw [if_neg he] at h hr
      exact packUnionItem_blob_shape rest tag pv it hr h
termination_by ms tag pv it => (sizeOf ms, 2)

theorem packFieldItems_blob_shape : ∀ (ver : Nat) (fs : List (Nat × TypeRef)) (vs : List Value)
    (items : List (TypeRef × ItemEnc)),
    representableFields ver fs vs = true → packFieldItems ver fs vs = .ok items →
    ∀ p ∈ items, 8 ∣ (p.2).blobBytes.length ∧ ((p.2).blobBytes = [] ∨ 8 ≤ (p.2).blobBytes.length) := by
  intro ver fs vs items hr h
  match fs with
  | [] =>
    match vs with
    | [] => simp only [packFieldItems] at h; cases h; simp
    | v :: vtl => simp [packFieldItems] at h
  | (mv, t) :: rest =>
    match vs with
    | [] =>
      simp only [packFieldItems] at h
      simp only [representableFields] at hr
      by_cases hv : ver < mv
      · rw [if_pos hv] at h hr
        exact packFieldItems_blob_shape ver rest [] items hr h
      · rw [if_neg hv] at hr
        cases hr
    | v :: vtl =>
      simp only [packFieldItems] at h
      simp only [representableFields] at hr
      by_cases hv : ver < mv
      · rw [if_pos hv] at h hr
        exact packFieldItems_blob_shape ver rest (v :: vtl) items hr h
      · rw [if_neg hv] at h hr
        simp only [Bool.and_eq_true] at hr
        match hpi : packItem t v with
        | .ok it =>
          rw [hpi] at h
          match hrest : packFieldItems ver rest vtl with
          | .ok items2 =>
            rw [hrest] at h
            cases h
            intro p hp
            rcases List.mem_cons.mp hp with rfl | hp2
            · exact packItem_blob_shape t v it hr.1 hpi
            · exact packFieldItems_blob_shape ver rest vtl items2 hr.2 hrest p hp2
          | .error e1 => rw [hrest] at h; cases h
        | .error e1 => rw [hpi] at h; cases h
termination_by ver fs vs items => (sizeOf fs, 2)

theorem packArrayItems_blob_shape : ∀ (e : TypeRef) (vs : List Value)
    (items : List (TypeRef × ItemEnc)),
    representableElems e vs = true → packArrayItems e vs = .ok items →
    ∀ p ∈ items, 8 ∣ (p.2).blobBytes.length ∧ ((p.2).blobBytes = [] ∨ 8 ≤ (p.2).blobBytes.length) := by
  intro e vs items hr h
  match vs with
  | [] => simp only [packArrayItems] at h; cases h; simp
  | v :: vtl =>
    simp only [packArrayItems, representableElems, Bool.and_eq_true] at h hr
    match hpi : packItem e v with
    | .ok it =>
      rw [hpi] at h
      match hrest : packArrayItems e vtl with
      | .ok items2 =>
        rw [hrest] at h
        cases h
        intro p hp
        rcases List.mem_cons.mp hp with rfl | hp2
        · exact packItem_blob_shape e v it hr.1 hpi
        · exact packArrayItems_blob_shape e vtl items2 hr.2 hrest p hp2
      | .error e1 => rw [hrest] at h; cases h
    | .error e1 => rw [hpi] at h; cases h
termination_by e vs items => (sizeOf e, 2 + vs.length)

end

end Mojom

namespace Mojom

/-! ## Representable values pack successfully -/

theorem representable_pack_ok {t : TypeRef} {v : Value}
    (hr : representable t v = true) : ∃ b, packBlob t v = .ok b := by
  cases t with
  | int w s1 =>
    obtain ⟨bs, hbs⟩ := representable_packScalar hr (by simp [isScalar])
    cases v <;> simp only [representable] at hr <;> try cases hr
    exact ⟨bs, by simpa only [packBlob] using hbs⟩
  | boolT =>
    obtain ⟨bs, hbs⟩ := representable_packScalar hr (by simp [isScalar])
    cases v <;> simp only [representable] at hr <;> try cases hr
    exact ⟨bs, by simpa only [packBlob] using hbs⟩
  | enumT es =>
    obtain ⟨bs, hbs⟩ := representable_packScalar hr (by simp [isScalar])
    cases v <;> simp only [representable] at hr <;> try cases hr
    exact ⟨bs, by simpa only [packBlob] using hbs⟩
  | stringT =>
    cases v <;> simp only [representable] at hr <;> try cases hr
    rename_i s
    simp only [Bool.and_eq_true, decide_eq_true_eq, List.all_eq_true] at hr
    refine ⟨encodeLE 4 s.length ++ s ++
      List.replicate (alignTo 8 (4 + s.length) - (4 + s.length)) 0, ?_⟩
    simp only [packBlob]
    rw [if_pos]
    constructor
    · exact hr.1
    · simp only [List.all_eq_true, decide_eq_true_eq]
      exact fun x hx => hr.2 x hx
  | arrayT e =>
    cases v <;> simp only [representable] at hr <;> try cases hr
    simp only [Bool.and_eq_true] at hr
    obtain ⟨b, hb, _⟩ := blobLenOk_elim hr.2
    exact ⟨b, hb⟩
  | structT ver fs =>
    cases v <;> simp only [representable] at hr <;> try cases hr
    simp only [Bool.and_eq_true] at hr
    obtain ⟨b, hb, _⟩ := blobLenOk_elim hr.2
    exact ⟨b, hb⟩
  | unionT ms =>
    cases v <;> simp only [representable] at hr <;> try cases hr
    simp only [Bool.and_eq_true] at hr
    obtain ⟨b, hb, _⟩ := blobLenOk_elim hr.2
    exact ⟨b, hb⟩

end Mojom

namespace Mojom

/-! ## Positioned-read helpers -/

theorem readAt_zero {seg : Bytes} (post : Bytes) {m : Nat} (hm : seg.length = m) :
    readAt (seg ++ post) 0 m = some seg := by
  have h := readAt_append [] seg post
  simpa [hm] using h

theorem readAt_after {pre seg : Bytes} (post : Bytes) {n m : Nat}
    (hn : pre.length = n) (hm : seg.length = m) :
    readAt (pre ++ seg ++ post) n m = some seg := by
  have h := readAt_append pre seg post
  rwa [hn, hm] at h

theorem drop_at {x : Bytes} (y : Bytes) {n : Nat} (h : x.length = n) : (x ++ y).drop n = y := by
  rw [← h]
  exact List.drop_left x y

theorem drop_ne_nil_lt {buf x rest : Bytes} {s : Nat}
    (h : buf.drop s = x ++ rest) (hx : x ≠ []) : s < buf.length := by
  have h1 : (buf.drop s).length = x.length + rest.length := by rw [h]; simp
  have h2 : 0 < x.length := List.length_pos.mpr hx
  simp only [List.length_drop] at h1
  omega

theorem decodeLE_encodeLE_small32 {v : Nat} (h : v < 2 ^ 32) :
    decodeLE (encodeLE 4 v) = v := by
  rw [decodeLE_encodeLE]
  exact Nat.mod_eq_of_lt (by norm_num; omega)

theorem decodeLE_encodeLE_small64 {v : Nat} (h : v < 2 ^ 64) :
    decodeLE (encodeLE 8 v) = v := by
  rw [decodeLE_encodeLE]
  exact Nat.mod_eq_of_lt (by norm_num; omega)

end Mojom

namespace Mojom

theorem readAt_skip {pre rest : Bytes} {k o j n : Nat} (hp : pre.length = k) (hj : k + o = j) :
    readAt (pre ++ rest) j n = readAt rest o n := by
  subst hj
  unfold readAt
  have hlen : (pre ++ rest).length = k + rest.length := by simp [hp]
  rw [hlen]
  by_cases hc : o + n ≤ rest.length
  · rw [if_pos (by omega), if_pos hc]
    congr 1
    have h1 : (pre ++ rest).drop (k + o) = ((pre ++ rest).drop k).drop o := by
      rw [List.drop_drop]
    rw [h1, drop_at rest hp]
  · rw [if_neg (by omega), if_neg (by omega)]

theorem drop_skip {pre rest : Bytes} {k o j : Nat} (hp : pre.length = k) (hj : k + o = j) :
    (pre ++ rest).drop j = rest.drop o := by
  subst hj
  have h1 : (pre ++ rest).drop (k + o) = ((pre ++ rest).drop k).drop o := by
    rw [List.drop_drop]
  rw [h1, drop_at rest hp]

end Mojom

namespace Mojom

theorem packUnionItem_tag {ms : List (Nat × TypeRef)} {tag : Nat} {pv : Value} {it : ItemEnc}
    (h : packUnionItem ms tag pv = .ok it) :
    (∃ x, it = .unionSc tag x) ∨ (∃ x, it = .unionPtr tag x) := by
  induction ms with
  | nil => simp [packUnionItem] at h
  | cons m rest ih =>
    obtain ⟨mtag, mt⟩ := m
    simp only [packUnionItem] at h
    by_cases he : mtag = tag
    · rw [if_pos he] at h
      by_cases hsc : isScalar mt = true
      · rw [if_pos hsc] at h
        match hps : packScalar mt pv with
        | .ok bs => rw [hps] at h; cases h; exact Or.inl ⟨_, rfl⟩
        | .error e1 => rw [hps] at h; cases h
      · rw [if_neg hsc] at h
        match hpb : packBlob mt pv with
        | .ok b => rw [hpb] at h; cases h; exact Or.inr ⟨_, rfl⟩
        | .error e1 => rw [hpb] at h; cases h
    · rw [if_neg he] at h
      exact ih h

end Mojom

namespace Mojom

theorem take_at {x : Bytes} (y : Bytes) {n : Nat} (h : x.length = n) : (x ++ y).take n = x := by
  rw [← h]
  exact List.take_left x y

theorem take_full {x : Bytes} {n : Nat} (h : x.length = n) : x.take n = x := by
  rw [← h]
  exact List.take_length x

end Mojom

namespace Mojom

set_option maxHeartbeats 1600000

mutual

theorem rt_blob : ∀ (t : TypeRef) (v : Value) (b : Bytes),
    representable t v = true → packBlob t v = .ok b →
    ∀ extra, deparseBlob t (b ++ extra) = .ok v := by
  intro t v b hr h extra
  match t, v with
  | .int w s1, v =>
    simp only [packBlob] at h
    have hlen := packScalar_length h
    simp only [deparseBlob, readAt_zero extra hlen, packScalar_roundtrip hr h]
  | .boolT, v =>
    simp only [packBlob] at h
    have hlen := packScalar_length h
    simp only [deparseBlob, readAt_zero extra hlen, packScalar_roundtrip hr h]
  | .enumT es, v =>
    simp only [packBlob] at h
    have hlen := packScalar_length h
    simp only [deparseBlob, readAt_zero extra hlen, packScalar_roundtrip hr h]
  | .stringT, .strV s =>
    simp only [packBlob] at h
    split at h
    · rename_i hc
      cases h
      have hl32 : s.length < 2 ^ 32 := hc.1
      simp only [List.append_assoc]
      have h1 : readAt (encodeLE 4 s.length ++ (s ++
          (List.replicate (alignTo 8 (4 + s.length) - (4 + s.length)) 0 ++ extra))) 0 4 =
          some (encodeLE 4 s.length) :=
        readAt_zero _ (encodeLE_length 4 s.length)
      have h2 : readAt (encodeLE 4 s.length ++ (s ++
          (List.replicate (alignTo 8 (4 + s.length) - (4 + s.length)) 0 ++ extra))) 4 s.length =
          some s := by
        rw [readAt_skip (encodeLE_length 4 s.length) (by omega : 4 + 0 = 4)]
        exact readAt_zero _ rfl
      simp only [deparseBlob, h1, h2, decodeLE_encodeLE_small32 hl32]
    · cases h
  | .stringT, .intV i => simp [packBlob] at h
  | .stringT, .boolV b1 => simp [packBlob] at h
  | .stringT, .arrV vs => simp [packBlob] at h
  | .stringT, .structV vs => simp [packBlob] at h
  | .stringT, .unionV tg pv => simp [packBlob] at h
  | .arrayT e, .arrV vs =>
    have hr2 := hr
    simp only [representable, Bool.and_eq_true, decide_eq_true_eq] at hr2
    obtain ⟨⟨hn32, helems⟩, hblobok⟩ := hr2
    obtain ⟨b2, hb2, hb2len⟩ := blobLenOk_elim hblobok
    rw [h] at hb2
    cases hb2
    simp only [packBlob] at h
    match hitems : packArrayItems e vs with
    | .ok items =>
      simp only [hitems] at h
      split at h
      · cases h
        have hsl := packArrayItems_slot_length helems hitems
        have hie := packArrayItems_itemsEnd hitems 4
        set L := alignTo 8 (4 + vs.length * slotSize e) with hLdef
        have hfst := buildInline_fst_length false items hsl 4 L
        set r := buildInline false items 4 L with hrdef
        have hr1len : r.1.length = vs.length * slotSize e := by
          rw [hfst, hie]
          omega
        have hble : 4 + vs.length * slotSize e ≤ L := by
          rw [hLdef]
          exact alignTo_le _ _
        have hb8 : 8 ∣ L := by
          rw [hLdef]
          exact alignTo_dvd _ _ (by norm_num)
        simp only [List.length_append, encodeLE_length, List.length_replicate, hr1len] at hb2len
        simp only [List.append_assoc]
        have h1 : readAt (encodeLE 4 vs.length ++ (r.1 ++
            (List.replicate (L - (4 + vs.length * slotSize e)) 0 ++ (r.2 ++ extra)))) 0 4 =
            some (encodeLE 4 vs.length) := readAt_zero _ (encodeLE_length 4 vs.length)
        have h3 : (encodeLE 4 vs.length ++ (r.1 ++
            (List.replicate (L - (4 + vs.length * slotSize e)) 0 ++ (r.2 ++ extra)))).drop L =
            r.2 ++ extra := by
          rw [drop_skip (encodeLE_length 4 vs.length) (by omega : 4 + (L - 4) = L)]
          rw [drop_skip hr1len
            (by omega : vs.length * slotSize e + (L - (4 + vs.length * slotSize e)) = L - 4)]
          exact drop_at _ (List.length_replicate _ _)
        have helems_dep : deparseElems e vs.length (encodeLE 4 vs.length ++ (r.1 ++
            (List.replicate (L - (4 + vs.length * slotSize e)) 0 ++ (r.2 ++ extra)))) 4 =
            .ok vs := by
          refine rt_elems e vs items _ 4 L helems hitems ?_ ⟨extra, h3⟩ ?_ ?_ ?_
          · rw [readAt_skip (encodeLE_length 4 vs.length) (by omega : 4 + 0 = 4)]
            exact readAt_zero _ rfl
          · rw [hie]
            exact hble
          · exact Nat.mod_eq_zero_of_dvd hb8
          · show L + r.2.length < 2 ^ 64
            omega
        simp only [deparseBlob, h1, decodeLE_encodeLE_small32 hn32, helems_dep]
      · omega
    | .error e1 => simp only [hitems] at h; cases h
  | .arrayT e, .intV i => simp [packBlob] at h
  | .arrayT e, .boolV b1 => simp [packBlob] at h
  | .arrayT e, .strV s => simp [packBlob] at h
  | .arrayT e, .structV vs2 => simp [packBlob] at h
  | .arrayT e, .unionV tg pv => simp [packBlob] at h
  | .structT ver fs, .structV vs =>
    have hr2 := hr
    simp only [representable, Bool.and_eq_true, decide_eq_true_eq] at hr2
    obtain ⟨⟨hver32, hflds⟩, hblobok⟩ := hr2
    obtain ⟨b2, hb2, hb2len⟩ := blobLenOk_elim hblobok
    rw [h] at hb2
    cases hb2
    simp only [packBlob] at h
    match hitems : packFieldItems ver fs vs with
    | .ok items =>
      simp only [hitems] at h
      split at h
      · cases h
        have hsl := packFieldItems_slot_length hflds hitems
        have hie := packFieldItems_itemsEnd hitems 8
        set endo := layoutEnd ver 8 fs with hendodef
        set L := alignTo 8 endo with hLdef
        have hfst := buildInline_fst_length true items hsl 8 L
        set r := buildInline true items 8 L with hrdef
        have hr1len : r.1.length = endo - 8 := by
          rw [hfst, hie]
        have hele : 8 ≤ endo := by
          rw [hendodef]
          exact layoutEnd_le ver fs 8
        have hLe : endo ≤ L := by
          rw [hLdef]
          exact alignTo_le 8 endo
        have hb8 : 8 ∣ L := by
          rw [hLdef]
          exact alignTo_dvd 8 endo (by norm_num)
        simp only [List.length_append, encodeLE_length, List.length_replicate, hr1len] at hb2len
        simp only [List.append_assoc]
        have h1 : readAt (encodeLE 4 L ++ (encodeLE 4 ver ++ (r.1 ++
            (List.replicate (L - endo) 0 ++ (r.2 ++ extra))))) 0 4 =
            some (encodeLE 4 L) := readAt_zero _ (encodeLE_length 4 L)
        have h2 : readAt (encodeLE 4 L ++ (encodeLE 4 ver ++ (r.1 ++
            (List.replicate (L - endo) 0 ++ (r.2 ++ extra))))) 4 4 =
            some (encodeLE 4 ver) := by
          rw [readAt_skip (encodeLE_length 4 L) (by omega : 4 + 0 = 4)]
          exact readAt_zero _ (encodeLE_length 4 ver)
        have h3 : readAt (encodeLE 4 L ++ (encodeLE 4 ver ++ (r.1 ++
            (List.replicate (L - endo) 0 ++ (r.2 ++ extra))))) 8 r.1.length = some r.1 := by
          rw [readAt_skip (encodeLE_length 4 L) (by omega : 4 + 4 = 8)]
          rw [readAt_skip (encodeLE_length 4 ver) (by omega : 4 + 0 = 4)]
          exact readAt_zero _ rfl
        have h4 : (encodeLE 4 L ++ (encodeLE 4 ver ++ (r.1 ++
            (List.replicate (L - endo) 0 ++ (r.2 ++ extra))))).drop L = r.2 ++ extra := by
          rw [drop_skip (encodeLE_length 4 L) (by omega : 4 + (L - 4) = L)]
          rw [drop_skip (encodeLE_length 4 ver) (by omega : 4 + (L - 8) = L - 4)]
          rw [drop_skip hr1len (by omega : (endo - 8) + (L - endo) = L - 8)]
          exact drop_at _ (List.length_replicate _ _)
        have hbuflen : L ≤ (encodeLE 4 L ++ (encodeLE 4 ver ++ (r.1 ++
            (List.replicate (L - endo) 0 ++ (r.2 ++ extra))))).length := by
          simp only [List.length_append, encodeLE_length, List.length_replicate, hr1len]
          omega
        have hfields_dep : deparseFields ver fs (encodeLE 4 L ++ (encodeLE 4 ver ++ (r.1 ++
            (List.replicate (L - endo) 0 ++ (r.2 ++ extra))))) L 8 = .ok vs := by
          refine rt_fields fs ver vs items _ L 8 L hflds hitems h3 ⟨extra, h4⟩ ?_ ?_ ?_ ?_
          · rw [hie]
            exact hLe
          · exact Nat.mod_eq_zero_of_dvd hb8
          · show L + r.2.length < 2 ^ 64
            omega
          · rw [hie]
            exact hLe
        have hnot1 : ¬ ((encodeLE 4 L ++ (encodeLE 4 ver ++ (r.1 ++
            (List.replicate (L - endo) 0 ++ (r.2 ++ extra))))).length < L) := by omega
        have hnot2 : ¬ (L < alignTo 8 (layoutEnd ver 8 fs)) := by
          rw [← hendodef, ← hLdef]
          omega
        have hL32 : L < 2 ^ 32 := by omega
        simp only [deparseBlob, h1, h2, decodeLE_encodeLE_small32 hL32,
          decodeLE_encodeLE_small32 hver32, if_neg hnot1, if_neg hnot2, hfields_dep]
      · cases h
    | .error e1 => simp only [hitems] at h; cases h
  | .structT ver fs, .intV i => simp [packBlob] at h
  | .structT ver fs, .boolV b1 => simp [packBlob] at h
  | .structT ver fs, .strV s => simp [packBlob] at h
  | .structT ver fs, .arrV vs => simp [packBlob] at h
  | .structT ver fs, .unionV tg pv => simp [packBlob] at h
  | .unionT ms, .unionV tag pv =>
    have hr2 := hr
    simp only [representable, Bool.and_eq_true, decide_eq_true_eq] at hr2
    obtain ⟨⟨htag32, hru⟩, hblobok⟩ := hr2
    simp only [packBlob] at h
    match hit : packUnionItem ms tag pv with
    | .ok it =>
      simp only [hit] at h
      cases h
      have hslotlen := packUnionItem_slot_length hru hit 16 0
      rcases packUnionItem_tag hit with ⟨x, hx⟩ | ⟨x, hx⟩
      · subst hx
        simp only [ItemEnc.slotBytes] at hslotlen
        simp only [ItemEnc.slotBytes, ItemEnc.blobBytes, List.append_nil]
        have h4 : readAt ((encodeLE 4 16 ++ encodeLE 4 tag ++ x) ++ extra) 0 16 =
            some (encodeLE 4 16 ++ encodeLE 4 tag ++ x) := readAt_zero _ hslotlen
        have hdrop16 : ((encodeLE 4 16 ++ encodeLE 4 tag ++ x) ++ extra).drop 16 = extra :=
          drop_at _ hslotlen
        have hu := rt_union ms tag pv (.unionSc tag x)
          ((encodeLE 4 16 ++ encodeLE 4 tag ++ x) ++ extra) 0 16 hru htag32 hit
          (by simpa [ItemEnc.slotBytes] using h4)
          ⟨extra, by simpa [ItemEnc.blobBytes] using hdrop16⟩ (by omega) (by norm_num)
          (by norm_num)
        have hbuf : (encodeLE 4 16 ++ encodeLE 4 tag ++ x) ++ extra =
            encodeLE 4 16 ++ (encodeLE 4 tag ++ (x ++ extra)) := by
          simp only [List.append_assoc]
        have h2 : readAt ((encodeLE 4 16 ++ encodeLE 4 tag ++ x) ++ extra) 0 4 =
            some (encodeLE 4 16) := by
          rw [hbuf]
          exact readAt_zero _ (encodeLE_length 4 16)
        have h3 : readAt ((encodeLE 4 16 ++ encodeLE 4 tag ++ x) ++ extra) 4 4 =
            some (encodeLE 4 tag) := by
          rw [hbuf, readAt_skip (encodeLE_length 4 16) (by omega : 4 + 0 = 4)]
          exact readAt_zero _ (encodeLE_length 4 tag)
        simp only [deparseBlob, h2, h3, decodeLE_encodeLE_small32 htag32]
        simpa using hu
      · subst hx
        simp only [ItemEnc.slotBytes] at hslotlen
        simp only [ItemEnc.slotBytes, ItemEnc.blobBytes]
        rw [List.append_assoc]
        have h4 : readAt ((encodeLE 4 16 ++ encodeLE 4 tag ++ encodeLE 8 (16 - (0 + 8))) ++
            (x ++ extra)) 0 16 =
            some (encodeLE 4 16 ++ encodeLE 4 tag ++ encodeLE 8 (16 - (0 + 8))) :=
          readAt_zero _ hslotlen
        have hdrop16 : ((encodeLE 4 16 ++ encodeLE 4 tag ++ encodeLE 8 (16 - (0 + 8))) ++
            (x ++ extra)).drop 16 = x ++ extra := drop_at _ hslotlen
        have hu := rt_union ms tag pv (.unionPtr tag x)
          ((encodeLE 4 16 ++ encodeLE 4 tag ++ encodeLE 8 (16 - (0 + 8))) ++ (x ++ extra))
          0 16 hru htag32 hit
          (by simpa [ItemEnc.slotBytes] using h4)
          ⟨extra, by simpa [ItemEnc.blobBytes] using hdrop16⟩ (by omega) (by norm_num)
          (by norm_num)
        have hbuf : (encodeLE 4 16 ++ encodeLE 4 tag ++ encodeLE 8 (16 - (0 + 8))) ++
            (x ++ extra) =
            encodeLE 4 16 ++ (encodeLE 4 tag ++ (encodeLE 8 (16 - (0 + 8)) ++ (x ++ extra))) := by
          simp only [List.append_assoc]
        have h2 : readAt ((encodeLE 4 16 ++ encodeLE 4 tag ++ encodeLE 8 (16 - (0 + 8))) ++
            (x ++ extra)) 0 4 = some (encodeLE 4 16) := by
          rw [hbuf]
          exact readAt_zero _ (encodeLE_length 4 16)
        have h3 : readAt ((encodeLE 4 16 ++ encodeLE 4 tag ++ encodeLE 8 (16 - (0 + 8))) ++
            (x ++ extra)) 4 4 = some (encodeLE 4 tag) := by
          rw [hbuf, readAt_skip (encodeLE_length 4 16) (by omega : 4 + 0 = 4)]
          exact readAt_zero _ (encodeLE_length 4 tag)
        simp only [deparseBlob, h2, h3, decodeLE_encodeLE_small32 htag32]
        simpa using hu
    | .error e1 => simp only [hit] at h; cases h
  | .unionT ms, .intV i => simp [packBlob] at h
  | .unionT ms, .boolV b1 => simp [packBlob] at h
  | .unionT ms, .strV s => simp [packBlob] at h
  | .unionT ms, .arrV vs => simp [packBlob] at h
  | .unionT ms, .structV vs => simp [packBlob] at h
termination_by t v b => (sizeOf t, 0)

theorem rt_slot : ∀ (t : TypeRef) (v : Value) (it : ItemEnc) (buf : Bytes) (o s : Nat),
    representable t v = true → packItem t v = .ok it →
    readAt buf o (slotSize t) = some (it.slotBytes s o) →
    (∃ rest, buf.drop s = it.blobBytes ++ rest) →
    o + slotSize t ≤ s → s % 8 = 0 → s < 2 ^ 64 →
    deparseSlot t buf o = .ok v := by
  intro t v it buf o s hrep hpack hslot hblob hle hs8 hs64
  match t with
  | .int w s1 =>
    simp only [packItem] at hpack
    match hps : packScalar (.int w s1) v with
    | .ok bs =>
      simp only [hps, Except.map] at hpack
      cases hpack
      simp only [ItemEnc.slotBytes] at hslot
      simp only [deparseSlot, hslot, packScalar_roundtrip hrep hps]
    | .error e1 => simp only [hps, Except.map] at hpack; cases hpack
  | .boolT =>
    simp only [packItem] at hpack
    match hps : packScalar .boolT v with
    | .ok bs =>
      simp only [hps, Except.map] at hpack
      cases hpack
      simp only [ItemEnc.slotBytes] at hslot
      simp only [deparseSlot, hslot, packScalar_roundtrip hrep hps]
    | .error e1 => simp only [hps, Except.map] at hpack; cases hpack
  | .enumT es =>
    simp only [packItem] at hpack
    match hps : packScalar (.enumT es) v with
    | .ok bs =>
      simp only [hps, Except.map] at hpack
      cases hpack
      simp only [ItemEnc.slotBytes] at hslot
      simp only [deparseSlot, hslot, packScalar_roundtrip hrep hps]
    | .error e1 => simp only [hps, Except.map] at hpack; cases hpack
  | .stringT =>
    simp only [packItem] at hpack
    match hpb : packBlob .stringT v with
    | .ok b =>
      simp only [hpb, Except.map] at hpack
      cases hpack
      simp only [slotSize] at hslot hle
      simp only [ItemEnc.slotBytes] at hslot
      simp only [ItemEnc.blobBytes] at hblob
      obtain ⟨rest, hdrop⟩ := hblob
      have hshape := packBlob_shape .stringT v b hrep hpb (by simp [isScalar])
      have hbne : b ≠ [] := by
        intro hnil
        rw [hnil] at hshape
        simp at hshape
      have hlt : s < buf.length := drop_ne_nil_lt hdrop hbne
      have hso : s - o < 2 ^ 64 := by omega
      have htar : o + (s - o) = s := by omega
      have hfp : followPointer buf o = .ok (buf.drop s) := by
        simp only [followPointer, hslot, decodeLE_encodeLE_small64 hso, htar, hs8, hlt,
          if_true]
      have hrb := rt_blob .stringT v b hrep hpb rest
      simp only [deparseSlot, hfp]
      rw [hdrop]
      exact hrb
    | .error e1 => simp only [hpb, Except.map] at hpack; cases hpack
  | .arrayT e =>
    simp only [packItem] at hpack
    match hpb : packBlob (.arrayT e) v with
    | .ok b =>
      simp only [hpb, Except.map] at hpack
      cases hpack
      simp only [slotSize] at hslot hle
      simp only [ItemEnc.slotBytes] at hslot
      simp only [ItemEnc.blobBytes] at hblob
      obtain ⟨rest, hdrop⟩ := hblob
      have hshape := packBlob_shape (.arrayT e) v b hrep hpb (by simp [isScalar])
      have hbne : b ≠ [] := by
        intro hnil
        rw [hnil] at hshape
        simp at hshape
      have hlt : s < buf.length := drop_ne_nil_lt hdrop hbne
      have hso : s - o < 2 ^ 64 := by omega
      have htar : o + (s - o) = s := by omega
      have hfp : followPointer buf o = .ok (buf.drop s) := by
        simp only [followPointer, hslot, decodeLE_encodeLE_small64 hso, htar, hs8, hlt,
          if_true]
      have hrb := rt_blob (.arrayT e) v b hrep hpb rest
      simp only [deparseSlot, hfp]
      rw [hdrop]
      exact hrb
    | .error e1 => simp only [hpb, Except.map] at hpack; cases hpack
  | .structT ver fs =>
    simp only [packItem] at hpack
    match hpb : packBlob (.structT ver fs) v with
    | .ok b =>
      simp only [hpb, Except.map] at hpack
      cases hpack
      simp only [slotSize] at hslot hle
      simp only [ItemEnc.slotBytes] at hslot
      simp only [ItemEnc.blobBytes] at hblob
      obtain ⟨rest, hdrop⟩ := hblob
      have hshape := packBlob_shape (.structT ver fs) v b hrep hpb (by simp [isScalar])
      have hbne : b ≠ [] := by
        intro hnil
        rw [hnil] at hshape
        simp at hshape
      have hlt : s < buf.length := drop_ne_nil_lt hdrop hbne
      have hso : s - o < 2 ^ 64 := by omega
      have htar : o + (s - o) = s := by omega
      have hfp : followPointer buf o = .ok (buf.drop s) := by
        simp only [followPointer, hslot, decodeLE_encodeLE_small64 hso, htar, hs8, hlt,
          if_true]
      have hrb := rt_blob (.structT ver fs) v b hrep hpb rest
      simp only [deparseSlot, hfp]
      rw [hdrop]
      exact hrb
    | .error e1 => simp only [hpb, Except.map] at hpack; cases hpack
  | .unionT ms =>
    match v with
    | .unionV tag pv =>
      simp only [packItem] at hpack
      have hr2 := hrep
      simp only [representable, Bool.and_eq_true, decide_eq_true_eq] at hr2
      obtain ⟨⟨htag32, hru⟩, hblobok⟩ := hr2
      simp only [slotSize] at hslot hle
      rcases packUnionItem_tag hpack with ⟨x, hx⟩ | ⟨x, hx⟩
      · subst hx
        have h1 : readAt buf o 4 = some (encodeLE 4 16) := by
          have hsub := readAt_sub hslot 0 4 (by simp [ItemEnc.slotBytes])
          rw [Nat.add_zero, List.drop_zero] at hsub
          rwa [show (ItemEnc.unionSc tag x).slotBytes s o =
            encodeLE 4 16 ++ (encodeLE 4 tag ++ x) from by
              simp [ItemEnc.slotBytes, List.append_assoc],
            take_at _ (encodeLE_length 4 16)] at hsub
        have h2 : readAt buf (o + 4) 4 = some (encodeLE 4 tag) := by
          have hsub := readAt_sub hslot 4 4 (by simp [ItemEnc.slotBytes])
          rwa [show (ItemEnc.unionSc tag x).slotBytes s o =
            encodeLE 4 16 ++ (encodeLE 4 tag ++ x) from by
              simp [ItemEnc.slotBytes, List.append_assoc],
            drop_at _ (encodeLE_length 4 16), take_at _ (encodeLE_length 4 tag)] at hsub
        have hu := rt_union ms tag pv (.unionSc tag x) buf o s hru htag32 hpack hslot hblob
          hle hs8 hs64
        simp only [deparseSlot, h1, h2, decodeLE_encodeLE_small32 htag32, hu]
      · subst hx
        have h1 : readAt buf o 4 = some (encodeLE 4 16) := by
          have hsub := readAt_sub hslot 0 4 (by simp [ItemEnc.slotBytes])
          rw [Nat.add_zero, List.drop_zero] at hsub
          rwa [show (ItemEnc.unionPtr tag x).slotBytes s o =
            encodeLE 4 16 ++ (encodeLE 4 tag ++ encodeLE 8 (s - (o + 8))) from by
              simp [ItemEnc.slotBytes, List.append_assoc],
            take_at _ (encodeLE_length 4 16)] at hsub
        have h2 : readAt buf (o + 4) 4 = some (encodeLE 4 tag) := by
          have hsub := readAt_sub hslot 4 4 (by simp [ItemEnc.slotBytes])
          rwa [show (ItemEnc.unionPtr tag x).slotBytes s o =
            encodeLE 4 16 ++ (encodeLE 4 tag ++ encodeLE 8 (s - (o + 8))) from by
              simp [ItemEnc.slotBytes, List.append_assoc],
            drop_at _ (encodeLE_length 4 16), take_at _ (encodeLE_length 4 tag)] at hsub
        have hu := rt_union ms tag pv (.unionPtr tag x) buf o s hru htag32 hpack hslot hblob
          hle hs8 hs64
        simp only [deparseSlot, h1, h2, decodeLE_encodeLE_small32 htag32, hu]
    | .intV i => simp [packItem] at hpack
    | .boolV b1 => simp [packItem] at hpack
    | .strV s1 => simp [packItem] at hpack
    | .arrV vs => simp [packItem] at hpack
    | .structV vs => simp [packItem] at hpack
termination_by t v it buf o s => (sizeOf t, 1)

theorem rt_union : ∀ (ms : List (Nat × TypeRef)) (tag : Nat) (pv : Value) (it : ItemEnc)
    (buf : Bytes) (o s : Nat),
    representableUnion ms tag pv = true → tag < 2 ^ 32 → packUnionItem ms tag pv = .ok it →
    readAt buf o 16 = some (it.slotBytes s o) →
    (∃ rest, buf.drop s = it.blobBytes ++ rest) →
    o + 16 ≤ s → s % 8 = 0 → s < 2 ^ 64 →
    deparseUnionPayload ms tag buf (o + 8) = .ok (.unionV tag pv) := by
  intro ms tag pv it buf o s hru htag hpack hslot hblob hle hs8 hs64
  match ms with
  | [] => simp [packUnionItem] at hpack
  | (mtag, mt) :: rest =>
    simp only [packUnionItem] at hpack
    simp only [representableUnion] at hru
    by_cases he : mtag = tag
    · rw [if_pos he] at hpack hru
      by_cases hsc : isScalar mt = true
      · rw [if_pos hsc] at hpack
        match hps : packScalar mt pv with
        | .ok bs =>
          simp only [hps] at hpack
          cases hpack
          have hbslen := packScalar_length hps
          have hszle := isScalar_slotSize_le hru hsc
          have hslot2 : readAt buf o 16 =
              some (encodeLE 4 16 ++ (encodeLE 4 tag ++
                (bs ++ List.replicate (8 - bs.length) 0))) := by
            simpa [ItemEnc.slotBytes, List.append_assoc] using hslot
          have hdrop8 : (encodeLE 4 16 ++ (encodeLE 4 tag ++
              (bs ++ List.replicate (8 - bs.length) 0))).drop 8 =
              bs ++ List.replicate (8 - bs.length) 0 := by
            rw [← List.append_assoc]
            exact drop_at _ (by simp)
          have hpay : readAt buf (o + 8) (slotSize mt) = some bs := by
            have hsub := readAt_sub hslot2 8 (slotSize mt) (by omega)
            rw [hdrop8, take_at _ hbslen] at hsub
            exact hsub
          simp only [deparseUnionPayload, if_pos he, if_pos hsc, hpay,
            packScalar_roundtrip hru hps]
        | .error e1 => simp only [hps] at hpack; cases hpack
      · rw [if_neg hsc] at hpack
        match hpb : packBlob mt pv with
        | .ok b =>
          simp only [hpb] at hpack
          cases hpack
          obtain ⟨rest0, hdropb⟩ := hblob
          simp only [ItemEnc.blobBytes] at hdropb
          have hshape := packBlob_shape mt pv b hru hpb (by simpa using hsc)
          have hbne : b ≠ [] := by
            intro hnil
            rw [hnil] at hshape
            simp at hshape
          have hlt : s < buf.length := drop_ne_nil_lt hdropb hbne
          have hslot2 : readAt buf o 16 =
              some (encodeLE 4 16 ++ (encodeLE 4 tag ++ encodeLE 8 (s - (o + 8)))) := by
            simpa [ItemEnc.slotBytes, List.append_assoc] using hslot
          have hptr : readAt buf (o + 8) 8 = some (encodeLE 8 (s - (o + 8))) := by
            have hsub := readAt_sub hslot2 8 8 (by norm_num)
            have hd : (encodeLE 4 16 ++ (encodeLE 4 tag ++
                encodeLE 8 (s - (o + 8)))).drop 8 = encodeLE 8 (s - (o + 8)) := by
              rw [← List.append_assoc]
              exact drop_at _ (by simp)
            rw [hd, take_full (encodeLE_length 8 (s - (o + 8)))] at hsub
            exact hsub
          have hso : s - (o + 8) < 2 ^ 64 := by omega
          have htar : (o + 8) + (s - (o + 8)) = s := by omega
          have hfp : followPointer buf (o + 8) = .ok (buf.drop s) := by
            simp only [followPointer, hptr, decodeLE_encodeLE_small64 hso, htar, hs8, hlt,
              if_true]
          have hrb := rt_blob mt pv b hru hpb rest0
          simp only [deparseUnionPayload, if_pos he, if_neg hsc, hfp]
          rw [hdropb]
          simp only [hrb]
        | .error e1 => simp only [hpb] at hpack; cases hpack
    · rw [if_neg he] at hpack hru
      have hrec := rt_union rest tag pv it buf o s hru htag hpack hslot hblob hle hs8 hs64
      simp only [deparseUnionPayload, if_neg he]
      exact hrec
termination_by ms tag pv it buf o s => (sizeOf ms, 2)

theorem rt_fields : ∀ (fs : List (Nat × TypeRef)) (ver : Nat) (vs : List Value)
    (items : List (TypeRef × ItemEnc)) (buf : Bytes) (size cur bs : Nat),
    representableFields ver fs vs = true → packFieldItems ver fs vs = .ok items →
    readAt buf cur ((buildInline true items cur bs).1.length) =
      some (buildInline true items cur bs).1 →
    (∃ rest, buf.drop bs = (buildInline true items cur bs).2 ++ rest) →
    itemsEnd true items cur ≤ bs → bs % 8 = 0 →
    bs + (buildInline true items cur bs).2.length < 2 ^ 64 →
    itemsEnd true items cur ≤ size →
    deparseFields ver fs buf size cur = .ok vs := by
  intro fs ver vs items buf size cur bs hrep hpack hinl htail hend hbs8 hbs64 hsize
  match fs with
  | [] =>
    match vs with
    | [] =>
      simp only [packFieldItems] at hpack
      cases hpack
      simp [deparseFields]
    | v :: vtl => simp [packFieldItems] at hpack
  | (mv, t) :: rest =>
    match vs with
    | [] =>
      simp only [packFieldItems] at hpack
      simp only [representableFields] at hrep
      by_cases hv : ver < mv
      · rw [if_pos hv] at hpack hrep
        have hrec := rt_fields rest ver [] items buf size cur bs hrep hpack hinl htail
          hend hbs8 hbs64 hsize
        simp only [deparseFields, if_pos hv]
        exact hrec
      · rw [if_neg hv] at hrep
        cases hrep
    | v :: vtl =>
      simp only [packFieldItems] at hpack
      simp only [representableFields] at hrep
      by_cases hv : ver < mv
      · rw [if_pos hv] at hpack hrep
        have hrec := rt_fields rest ver (v :: vtl) items buf size cur bs hrep hpack hinl htail
          hend hbs8 hbs64 hsize
        simp only [deparseFields, if_pos hv]
        exact hrec
      · rw [if_neg hv] at hpack hrep
        simp only [Bool.and_eq_true] at hrep
        match hpi : packItem t v with
        | .ok it =>
          simp only [hpi] at hpack
          match hrest : packFieldItems ver rest vtl with
          | .ok items2 =>
            simp only [hrest] at hpack
            cases hpack
            have hslotlen := packItem_slot_length hrep.1 hpi
            have hitemblob := packItem_blob_shape t v it hrep.1 hpi
            have hbi1 : (buildInline true ((t, it) :: items2) cur bs).1 =
                List.replicate (alignTo (slotAlign t) cur - cur) 0 ++
                  (it.slotBytes bs (alignTo (slotAlign t) cur) ++
                  (buildInline true items2 (alignTo (slotAlign t) cur + slotSize t)
                    (bs + it.blobBytes.length)).1) := by
              simp [buildInline]
            have hbi2 : (buildInline true ((t, it) :: items2) cur bs).2 =
                it.blobBytes ++
                  (buildInline true items2 (alignTo (slotAlign t) cur + slotSize t)
                    (bs + it.blobBytes.length)).2 := by
              simp [buildInline]
            have hieq : itemsEnd true ((t, it) :: items2) cur =
                itemsEnd true items2 (alignTo (slotAlign t) cur + slotSize t) := by
              simp [itemsEnd]
            rw [hbi1] at hinl
            rw [hbi2] at htail hbs64
            rw [hieq] at hend hsize
            obtain ⟨rest0, hdrop⟩ := htail
            have hculeo : cur ≤ alignTo (slotAlign t) cur := alignTo_le _ _
            have hoslot : alignTo (slotAlign t) cur + slotSize t ≤ bs :=
              le_trans (itemsEnd_le true items2 _) hend
            have hosize : alignTo (slotAlign t) cur + slotSize t ≤ size :=
              le_trans (itemsEnd_le true items2 _) hsize
            have hslotread : readAt buf (alignTo (slotAlign t) cur) (slotSize t) =
                some (it.slotBytes bs (alignTo (slotAlign t) cur)) := by
              have hsub := readAt_sub hinl (alignTo (slotAlign t) cur - cur) (slotSize t)
                (by simp only [List.length_append, List.length_replicate, hslotlen]; omega)
              rw [show cur + (alignTo (slotAlign t) cur - cur) = alignTo (slotAlign t) cur
                from by omega] at hsub
              rw [drop_at _ (List.length_replicate _ _), take_at _ (hslotlen bs _)] at hsub
              exact hsub
            have hds : deparseSlot t buf (alignTo (slotAlign t) cur) = .ok v := by
              refine rt_slot t v it buf (alignTo (slotAlign t) cur) bs hrep.1 hpi hslotread
                ⟨(buildInline true items2 (alignTo (slotAlign t) cur + slotSize t)
                  (bs + it.blobBytes.length)).2 ++ rest0, ?_⟩ hoslot hbs8 ?_
              · rw [hdrop, List.append_assoc]
              · simp only [List.length_append] at hbs64
                omega
            have hrec : deparseFields ver rest buf size
                (alignTo (slotAlign t) cur + slotSize t) = .ok vtl := by
              refine rt_fields rest ver vtl items2 buf size
                (alignTo (slotAlign t) cur + slotSize t) (bs + it.blobBytes.length)
                hrep.2 hrest ?_ ?_ ?_ ?_ ?_ hsize
              · have hsub := readAt_sub hinl
                  ((alignTo (slotAlign t) cur - cur) + slotSize t)
                  ((buildInline true items2 (alignTo (slotAlign t) cur + slotSize t)
                    (bs + it.blobBytes.length)).1.length)
                  (by simp only [List.length_append, List.length_replicate, hslotlen]; omega)
                rw [show cur + ((alignTo (slotAlign t) cur - cur) + slotSize t) =
                  alignTo (slotAlign t) cur + slotSize t from by omega] at hsub
                rw [← List.drop_drop, drop_at _ (List.length_replicate _ _),
                  drop_at _ (hslotlen bs _), take_full rfl] at hsub
                exact hsub
              · refine ⟨rest0, ?_⟩
                rw [← List.drop_drop, hdrop, List.append_assoc]
                exact drop_at _ rfl
              · exact le_trans hend (Nat.le_add_right _ _)
              · apply Nat.mod_eq_zero_of_dvd
                exact Nat.dvd_add (Nat.dvd_of_mod_eq_zero hbs8) hitemblob.1
              · simp only [List.length_append] at hbs64
                omega
            have hnotlt : ¬ size < alignTo (slotAlign t) cur + slotSize t := by omega
            simp only [deparseFields, if_neg hv, if_neg hnotlt, hds, hrec]
          | .error e1 => simp only [hrest] at hpack; cases hpack
        | .error e1 => simp only [hpi] at hpack; cases hpack
termination_by fs ver vs items buf size cur bs => (sizeOf fs, 2)

theorem rt_elems : ∀ (e : TypeRef) (vs : List Value) (items : List (TypeRef × ItemEnc))
    (buf : Bytes) (cur bs : Nat),
    representableElems e vs = true → packArrayItems e vs = .ok items →
    readAt buf cur ((buildInline false items cur bs).1.length) =
      some (buildInline false items cur bs).1 →
    (∃ rest, buf.drop bs = (buildInline false items cur bs).2 ++ rest) →
    itemsEnd false items cur ≤ bs → bs % 8 = 0 →
    bs + (buildInline false items cur bs).2.length < 2 ^ 64 →
    deparseElems e vs.length buf cur = .ok vs := by
  intro e vs items buf cur bs hrep hpack hinl htail hend hbs8 hbs64
  match vs with
  | [] =>
    simp only [packArrayItems] at hpack
    cases hpack
    simp [deparseElems]
  | v :: vtl =>
    simp only [representableElems, Bool.and_eq_true] at hrep
    simp only [packArrayItems] at hpack
    match hpi : packItem e v with
    | .ok it =>
      simp only [hpi] at hpack
      match hrest : packArrayItems e vtl with
      | .ok items2 =>
        simp only [hrest] at hpack
        cases hpack
        have hslotlen := packItem_slot_length hrep.1 hpi bs cur
        have hitemblob := packItem_blob_shape e v it hrep.1 hpi
        have hbi1 : (buildInline false ((e, it) :: items2) cur bs).1 =
            it.slotBytes bs cur ++
              (buildInline false items2 (cur + slotSize e) (bs + it.blobBytes.length)).1 := by
          simp [buildInline]
        have hbi2 : (buildInline false ((e, it) :: items2) cur bs).2 =
            it.blobBytes ++
              (buildInline false items2 (cur + slotSize e) (bs + it.blobBytes.length)).2 := by
          simp [buildInline]
        have hieq : itemsEnd false ((e, it) :: items2) cur =
            itemsEnd false items2 (cur + slotSize e) := by
          simp [itemsEnd]
        rw [hbi1] at hinl
        rw [hbi2] at htail hbs64
        rw [hieq] at hend
        obtain ⟨rest0, hdrop⟩ := htail
        have hcurle : cur + slotSize e ≤ bs :=
          le_trans (itemsEnd_le false items2 (cur + slotSize e)) hend
        have hslotread : readAt buf cur (slotSize e) = some (it.slotBytes bs cur) := by
          have hsub := readAt_sub hinl 0 (slotSize e)
            (by simp only [List.length_append, hslotlen]; omega)
          rw [Nat.add_zero, List.drop_zero, take_at _ hslotlen] at hsub
          exact hsub
        have hds : deparseSlot e buf cur = .ok v := by
          refine rt_slot e v it buf cur bs hrep.1 hpi hslotread
            ⟨(buildInline false items2 (cur + slotSize e) (bs + it.blobBytes.length)).2 ++ rest0,
              ?_⟩ hcurle hbs8 ?_
          · rw [hdrop, List.append_assoc]
          · simp only [List.length_append] at hbs64
            omega
        have hrec : deparseElems e vtl.length buf (cur + slotSize e) = .ok vtl := by
          refine rt_elems e vtl items2 buf (cur + slotSize e) (bs + it.blobBytes.length)
            hrep.2 hrest ?_ ?_ ?_ ?_ ?_
          · have hsub := readAt_sub hinl (slotSize e)
              ((buildInline false items2 (cur + slotSize e) (bs + it.blobBytes.length)).1.length)
              (by simp only [List.length_append, hslotlen]; omega)
            rw [drop_at _ hslotlen, take_full rfl] at hsub
            exact hsub
          · refine ⟨rest0, ?_⟩
            rw [← List.drop_drop, hdrop, List.append_assoc]
            exact drop_at _ rfl
          · exact le_trans hend (Nat.le_add_right _ _)
          · apply Nat.mod_eq_zero_of_dvd
            exact Nat.dvd_add (Nat.dvd_of_mod_eq_zero hbs8) hitemblob.1
          · simp only [List.length_append] at hbs64
            omega
        simp only [List.length_cons, deparseElems, hds, hrec]
      | .error e1 => simp only [hrest] at hpack; cases hpack
    | .error e1 => simp only [hpi] at hpack; cases hpack
termination_by e vs items buf cur bs => (sizeOf e, 2 + vs.length)

end

end Mojom

namespace TextureCompressor

/-- C9: an invocation with fewer than 2 or more than 3 command-line arguments
after the program name (argv length outside `3..=4`) prints the usage message
to stderr and exits with status code 1 before opening, creating, or writing
any file. -/
theorem C9_usage_exit (args : List String) (env : Env)
    (h : args.length < 3 ∨ args.length > 4) :
    runMain args env = .usageExit (usageMsg args) 1 [] ∧
    (runMain args env).fileOps = [] := by
  have hc : (args.length < 3 || args.length > 4) = true := by
    rcases h with h | h <;> simp [h]
  refine ⟨?_, ?_⟩ <;> simp [runMain, hc, MainResult.fileOps]

theorem C9_usage_exit_witness :
    ((["texture_compressor", "in.png"] : List String).length < 3 ∨
      (["texture_compressor", "in.png"] : List String).length > 4) ∧
    (runMain ["texture_compressor", "in.png"]
        { openOk := true, infoOk := true, frame := none, createOk := true,
          writeHeaderOk := true, writeDataOk := true } =
      .usageExit (usageMsg ["texture_compressor", "in.png"]) 1 [] ∧
    (runMain ["texture_compressor", "in.png"]
        { openOk := true, infoOk := true, frame := none, createOk := true,
          writeHeaderOk := true, writeDataOk := true }).fileOps = []) :=
  ⟨Or.inl (by decide),
   C9_usage_exit ["texture_compressor", "in.png"]
     { openOk := true, infoOk := true, frame := none, createOk := true,
       writeHeaderOk := true, writeDataOk := true } (Or.inl (by decide))⟩

/-- C10: with a decodable input PNG and a writable output path, the bytes
written as image data are exactly the decoded pixel bytes of the input frame
(`&buf[..info.buffer_size()]` — an identity pass-through), the output PNG's
width, height, color type and bit depth equal the input's, the only file
operations are the input open and the output create (no ETC1 file is
created), and the optional third ETC1 argument only produces an informational
stdout message naming that path. -/
theorem C10_pass_through (args : List String) (env : Env) (d : DecodedPng)
    (hlen : args.length = 3 ∨ args.length = 4)
    (hopen : env.openOk = true) (hinfo : env.infoOk = true)
    (hframe : env.frame = some d)
    (hcreate : env.createOk = true) (hheader : env.writeHeaderOk = true)
    (hdata : env.writeDataOk = true) :
    runMain args env =
      .ok [.openRead (args.getD 1 ""), .createWrite (args.getD 2 "")]
        (match args.get? 3 with
         | some p => ["ETC1 output will be saved to: " ++ p]
         | none => [])
        { path := args.getD 2 "", width := d.width, height := d.height,
          colorType := d.colorType, bitDepth := d.bitDepth,
          data := d.frameData.take d.bufferSize } ∧
    (runMain args env).fileOps =
      [.openRead (args.getD 1 ""), .createWrite (args.getD 2 "")] := by
  have hc : (args.length < 3 || args.length > 4) = false := by
    rcases hlen with h | h <;> simp [h]
  refine ⟨?_, ?_⟩ <;>
    simp [runMain, hc, hopen, hinfo, hframe, hcreate, hheader, hdata, MainResult.fileOps]

theorem C10_pass_through_witness :
    ((["tc", "in.png", "out.png", "out.etc1"] : List String).length = 3 ∨
      (["tc", "in.png", "out.png", "out.etc1"] : List String).length = 4) ∧
    runMain ["tc", "in.png", "out.png", "out.etc1"]
        { openOk := true, infoOk := true,
          frame := some { width := 2, height := 2, colorType := 6, bitDepth := 8,
                          bufferSize := 4, frameData := [9, 8, 7, 6, 5] },
          createOk := true, writeHeaderOk := true, writeDataOk := true } =
      .ok [.openRead "in.png", .createWrite "out.png"]
        ["ETC1 output will be saved to: out.etc1"]
        { path := "out.png", width := 2, height := 2, colorType := 6, bitDepth := 8,
          data := [9, 8, 7, 6] } := by
  refine ⟨Or.inr (by decide), ?_⟩
  have h := (C10_pass_through ["tc", "in.png", "out.png", "out.etc1"]
    { openOk := true, infoOk := true,
      frame := some { width := 2, height := 2, colorType := 6, bitDepth := 8,
                      bufferSize := 4, frameData := [9, 8, 7, 6, 5] },
      createOk := true, writeHeaderOk := true, writeDataOk := true }
    { width := 2, height := 2, colorType := 6, bitDepth := 8,
      bufferSize := 4, frameData := [9, 8, 7, 6, 5] }
    (Or.inr rfl) rfl rfl rfl rfl rfl rfl).1
  simpa using h

end TextureCompressor

namespace Mojom

/-- C1: for every representable `(TypeRef, Value)` pair, packing succeeds and
deparsing the packed bytes yields the original value:
`deparse(type_ref, pack(type_ref, value)) == value`. -/
theorem C1_pack_deparse_roundtrip (t : TypeRef) (v : Value)
    (h : representable t v = true) :
    ∃ b, pack t v = .ok b ∧ deparse t b = .ok v := by
  obtain ⟨b, hb⟩ := representable_pack_ok h
  refine ⟨b, hb, ?_⟩
  have hrt := rt_blob t v b h hb []
  rw [List.append_nil] at hrt
  exact hrt

theorem C1_pack_deparse_roundtrip_witness :
    representable (TypeRef.structT 0 [(0, TypeRef.int 4 true), (0, TypeRef.int 4 true)])
      (Value.structV [Value.intV 3, Value.intV (-4)]) = true ∧
    ∃ b, pack (TypeRef.structT 0 [(0, TypeRef.int 4 true), (0, TypeRef.int 4 true)])
        (Value.structV [Value.intV 3, Value.intV (-4)]) = .ok b ∧
      deparse (TypeRef.structT 0 [(0, TypeRef.int 4 true), (0, TypeRef.int 4 true)]) b =
        .ok (Value.structV [Value.intV 3, Value.intV (-4)]) := by
  have hrep : representable (TypeRef.structT 0 [(0, TypeRef.int 4 true), (0, TypeRef.int 4 true)])
      (Value.structV [Value.intV 3, Value.intV (-4)]) = true := by
    simp only [representable, representableFields, blobLenOk, packBlob, packFieldItems,
      packItem, packScalar]
    rfl
  exact ⟨hrep, C1_pack_deparse_roundtrip _ _ hrep⟩

end Mojom

namespace Mojom

/-- C2: the schema text `struct Point { int32 x; int32 y; };` parses to a
Struct declaration named "Point" with two int32 fields at ordinals 0 and 1;
packing `(x: 3, y: -4)` against the struct type that declaration denotes
yields exactly 16 bytes — an 8-byte header encoding size=16 and version=0
followed by 3 and -4 as little-endian int32 — and deparsing those 16 bytes
reproduces the value. -/
theorem C2_point_struct_concrete :
    parse_messages (tokenize "struct Point \x7b int32 x; int32 y; \x7d;") =
      some ([Decl.structD "Point"
        [{ typeName := "int32", name := "x", explicitOrdinal := none,
           ordinal := 0, minVersion := 0 },
         { typeName := "int32", name := "y", explicitOrdinal := none,
           ordinal := 1, minVersion := 0 }]], []) ∧
    declTypeRef (Decl.structD "Point"
        [{ typeName := "int32", name := "x", explicitOrdinal := none,
           ordinal := 0, minVersion := 0 },
         { typeName := "int32", name := "y", explicitOrdinal := none,
           ordinal := 1, minVersion := 0 }]) =
      some (TypeRef.structT 0 [(0, TypeRef.int 4 true), (0, TypeRef.int 4 true)]) ∧
    pack (TypeRef.structT 0 [(0, TypeRef.int 4 true), (0, TypeRef.int 4 true)])
        (Value.structV [Value.intV 3, Value.intV (-4)]) =
      .ok [16, 0, 0, 0, 0, 0, 0, 0, 3, 0, 0, 0, 252, 255, 255, 255] ∧
    deparse (TypeRef.structT 0 [(0, TypeRef.int 4 true), (0, TypeRef.int 4 true)])
        [16, 0, 0, 0, 0, 0, 0, 0, 3, 0, 0, 0, 252, 255, 255, 255] =
      .ok (Value.structV [Value.intV 3, Value.intV (-4)]) := by
  refine ⟨by rfl, by rfl, ?_, ?_⟩
  · simp only [pack, packBlob, packFieldItems, packItem, packScalar]
    rfl
  · simp only [deparse, deparseBlob, deparseFields, deparseSlot, followPointer,
      deparseUnionPayload, deparseElems]
    rfl

/-- C6: enum values without an explicit integer default to the previous value
plus 1 starting at 0 — `enum Color { RED, GREEN, BLUE };` yields RED=0,
GREEN=1, BLUE=2 — and packing the enum value GREEN (1) against the enum type
that declaration denotes produces the 4 bytes of little-endian signed 32-bit
1. -/
theorem C6_enum_defaults_concrete :
    parse_messages (tokenize "enum Color \x7b RED, GREEN, BLUE \x7d;") =
      some ([Decl.enumD "Color"
        [{ name := "RED", value := 0 }, { name := "GREEN", value := 1 },
         { name := "BLUE", value := 2 }]], []) ∧
    declTypeRef (Decl.enumD "Color"
        [{ name := "RED", value := 0 }, { name := "GREEN", value := 1 },
         { name := "BLUE", value := 2 }]) = some (TypeRef.enumT [0, 1, 2]) ∧
    pack (TypeRef.enumT [0, 1, 2]) (Value.intV 1) = .ok [1, 0, 0, 0] := by
  refine ⟨by rfl, by rfl, ?_⟩
  simp only [pack, packBlob, packScalar]
  rfl

end Mojom

namespace Mojom

theorem deparseUnionPayload_unknown (ms : List (Nat × TypeRef)) (tag : Nat)
    (buf : Bytes) (off : Nat) (h : ∀ p ∈ ms, p.1 ≠ tag) :
    deparseUnionPayload ms tag buf off = .error .unknownTag := by
  induction ms with
  | nil => simp [deparseUnionPayload]
  | cons p rest ih =>
    obtain ⟨mtag, mt⟩ := p
    have h1 : mtag ≠ tag := h (mtag, mt) (by simp)
    simp only [deparseUnionPayload, if_neg h1]
    exact ih (fun q hq => h q (by simp [hq]))

/-- C4: deparsing a struct buffer shorter than the byte size its header
declares fails with BufferTooShortError; moreover the outcome is already
determined by the 8-byte header alone — no byte beyond the header affects
the result (nothing outside the supplied buffer is ever read). -/
theorem C4_truncated_struct (ver : Nat) (fs : List (Nat × TypeRef)) (buf : Bytes)
    (hshort : buf.length < decodeLE (buf.take 4)) :
    deparse (.structT ver fs) buf = .error .bufferTooShort ∧
    deparse (.structT ver fs) buf = deparse (.structT ver fs) (buf.take 8) := by
  have h1 : deparse (.structT ver fs) buf = .error .bufferTooShort := by
    simp only [deparse, deparseBlob]
    by_cases h8 : 8 ≤ buf.length
    · have hr0 : readAt buf 0 4 = some ((buf.drop 0).take 4) := readAt_some (by omega)
      have hr4 : readAt buf 4 4 = some ((buf.drop 4).take 4) := readAt_some (by omega)
      simp only [hr0, hr4, List.drop_zero]
      rw [if_pos hshort]
    · by_cases h4 : 4 ≤ buf.length
      · have hr0 : readAt buf 0 4 = some ((buf.drop 0).take 4) := readAt_some (by omega)
        have hr4 : readAt buf 4 4 = none := readAt_none (by omega)
        simp only [hr0, hr4]
      · have hr0 : readAt buf 0 4 = none := readAt_none (by omega)
        simp only [hr0]
  refine ⟨h1, ?_⟩
  by_cases h8 : 8 ≤ buf.length
  · have h2 : deparse (.structT ver fs) (buf.take 8) = .error .bufferTooShort := by
      simp only [deparse, deparseBlob]
      have hlen8 : (buf.take 8).length = 8 := by
        rw [List.length_take]
        omega
      have hr0 : readAt (buf.take 8) 0 4 = some (((buf.take 8).drop 0).take 4) :=
        readAt_some (by omega)
      have hr4 : readAt (buf.take 8) 4 4 = some (((buf.take 8).drop 4).take 4) :=
        readAt_some (by omega)
      simp only [hr0, hr4, List.drop_zero]
      have htt : (buf.take 8).take 4 = buf.take 4 := by
        rw [List.take_take]
        norm_num
      rw [htt, if_pos (by omega)]
    rw [h1, h2]
  · rw [List.take_of_length_le (by omega)]

theorem C4_truncated_struct_witness :
    ([32, 0, 0, 0, 0, 0, 0, 0] : Bytes).length <
      decodeLE (([32, 0, 0, 0, 0, 0, 0, 0] : Bytes).take 4) ∧
    (deparse (.structT 0 []) ([32, 0, 0, 0, 0, 0, 0, 0] : Bytes) =
        .error .bufferTooShort ∧
      deparse (.structT 0 []) ([32, 0, 0, 0, 0, 0, 0, 0] : Bytes) =
        deparse (.structT 0 []) (([32, 0, 0, 0, 0, 0, 0, 0] : Bytes).take 8)) :=
  ⟨by decide, C4_truncated_struct 0 [] [32, 0, 0, 0, 0, 0, 0, 0] (by decide)⟩

/-- C5: deparsing a union buffer whose 4-byte tag selects no declared member
(in particular a tag greater than every member's) fails with UnknownTagError
rather than returning a default-valued member. -/
theorem C5_unknown_union_tag (ms : List (Nat × TypeRef)) (buf : Bytes)
    (h8 : 8 ≤ buf.length)
    (hno : ∀ p ∈ ms, p.1 ≠ decodeLE ((buf.drop 4).take 4)) :
    deparse (.unionT ms) buf = .error .unknownTag := by
  have hr0 : readAt buf 0 4 = some ((buf.drop 0).take 4) := readAt_some (by omega)
  have hr4 : readAt buf 4 4 = some ((buf.drop 4).take 4) := readAt_some (by omega)
  simp only [deparse, deparseBlob, hr0, hr4]
  exact deparseUnionPayload_unknown ms _ buf 8 hno

theorem C5_unknown_union_tag_witness :
    8 ≤ ([16, 0, 0, 0, 5, 0, 0, 0, 0, 0, 0, 0, 0, 0, 0, 0] : Bytes).length ∧
    (∀ p ∈ ([(0, TypeRef.boolT)] : List (Nat × TypeRef)),
      p.1 ≠ decodeLE ((([16, 0, 0, 0, 5, 0, 0, 0, 0, 0, 0, 0, 0, 0, 0, 0] : Bytes).drop 4).take 4)) ∧
    deparse (.unionT [(0, TypeRef.boolT)])
      ([16, 0, 0, 0, 5, 0, 0, 0, 0, 0, 0, 0, 0, 0, 0, 0] : Bytes) = .error .unknownTag := by
  have hno : ∀ p ∈ ([(0, TypeRef.boolT)] : List (Nat × TypeRef)),
      p.1 ≠ decodeLE ((([16, 0, 0, 0, 5, 0, 0, 0, 0, 0, 0, 0, 0, 0, 0, 0] : Bytes).drop 4).take 4) := by
    intro p hp
    rw [List.mem_singleton] at hp
    subst hp
    decide
  exact ⟨by decide, hno,
    C5_unknown_union_tag [(0, TypeRef.boolT)]
      [16, 0, 0, 0, 5, 0, 0, 0, 0, 0, 0, 0, 0, 0, 0, 0] (by decide) hno⟩

/-- C7: a struct or union declaration with two fields sharing the same
explicit ordinal fails semantic validation with DuplicateOrdinal, and the
error is reported alongside the AST by `parse_messages` (non-fatal). -/
theorem C7_duplicate_ordinal (nm : String) (l1 l2 l3 : List PField) (f g : PField)
    (o : Nat) (hf : f.explicitOrdinal = some o) (hg : g.explicitOrdinal = some o) :
    validateDecl (.structD nm (l1 ++ f :: l2 ++ g :: l3)) =
      [.duplicateOrdinal nm] ∧
    validateDecl (.unionD nm (l1 ++ f :: l2 ++ g :: l3)) =
      [.duplicateOrdinal nm] ∧
    ∀ ts ds errs, parse_messages ts = some (ds, errs) →
      Decl.structD nm (l1 ++ f :: l2 ++ g :: l3) ∈ ds →
      SemanticError.duplicateOrdinal nm ∈ errs := by
  have he : explicitOrdinals (l1 ++ f :: l2 ++ g :: l3) =
      explicitOrdinals l1 ++ o :: (explicitOrdinals l2 ++ o :: explicitOrdinals l3) := by
    simp [explicitOrdinals, List.filterMap_append, List.filterMap_cons, hf, hg]
  have hcount : 2 ≤ (explicitOrdinals (l1 ++ f :: l2 ++ g :: l3)).count o := by
    rw [he]
    simp only [List.count_append, List.count_cons_self]
    omega
  have hmem : o ∈ explicitOrdinals (l1 ++ f :: l2 ++ g :: l3) := by
    rw [he]
    simp
  have hany : (explicitOrdinals (l1 ++ f :: l2 ++ g :: l3)).any
      (fun o2 => decide (2 ≤ (explicitOrdinals (l1 ++ f :: l2 ++ g :: l3)).count o2)) = true :=
    List.any_eq_true.mpr ⟨o, hmem, by simpa using hcount⟩
  have hs : validateDecl (.structD nm (l1 ++ f :: l2 ++ g :: l3)) =
      [.duplicateOrdinal nm] := by
    simp only [validateDecl]
    rw [if_pos hany]
  have hu : validateDecl (.unionD nm (l1 ++ f :: l2 ++ g :: l3)) =
      [.duplicateOrdinal nm] := by
    simp only [validateDecl]
    rw [if_pos hany]
  refine ⟨hs, hu, ?_⟩
  intro ts ds errs hpm hmemd
  simp only [parse_messages] at hpm
  match hds : parseDeclsF (ts.length + 1) ts with
  | some ds0 =>
    rw [hds] at hpm
    cases hpm
    exact List.mem_flatMap.mpr ⟨_, hmemd, by rw [hs]; simp⟩
  | none => rw [hds] at hpm; cases hpm

theorem C7_duplicate_ordinal_witness :
    ({ typeName := "int32", name := "a", explicitOrdinal := some 1, ordinal := 1,
       minVersion := 0 } : PField).explicitOrdinal = some 1 ∧
    ({ typeName := "int32", name := "b", explicitOrdinal := some 1, ordinal := 1,
       minVersion := 0 } : PField).explicitOrdinal = some 1 ∧
    validateDecl (.structD "S"
      [{ typeName := "int32", name := "a", explicitOrdinal := some 1, ordinal := 1,
         minVersion := 0 },
       { typeName := "int32", name := "b", explicitOrdinal := some 1, ordinal := 1,
         minVersion := 0 }]) = [.duplicateOrdinal "S"] ∧
    validateDecl (.unionD "S"
      [{ typeName := "int32", name := "a", explicitOrdinal := some 1, ordinal := 1,
         minVersion := 0 },
       { typeName := "int32", name := "b", explicitOrdinal := some 1, ordinal := 1,
         minVersion := 0 }]) = [.duplicateOrdinal "S"] ∧
    SemanticError.duplicateOrdinal "S" ∈ [SemanticError.duplicateOrdinal "S"] := by
  have h := C7_duplicate_ordinal "S" [] [] []
    { typeName := "int32", name := "a", explicitOrdinal := some 1, ordinal := 1,
      minVersion := 0 }
    { typeName := "int32", name := "b", explicitOrdinal := some 1, ordinal := 1,
      minVersion := 0 } 1 rfl rfl
  refine ⟨rfl, rfl, h.1, h.2.1, ?_⟩
  exact h.2.2 (tokenize "struct S \x7b int32 a@1; int32 b@1; \x7d;")
    [Decl.structD "S"
      [{ typeName := "int32", name := "a", explicitOrdinal := some 1, ordinal := 1,
         minVersion := 0 },
       { typeName := "int32", name := "b", explicitOrdinal := some 1, ordinal := 1,
         minVersion := 0 }]]
    [SemanticError.duplicateOrdinal "S"] (by rfl) (by simp)

end Mojom

namespace Mojom

theorem alignTo8_mono {n m : Nat} (h : n ≤ m) : alignTo 8 n ≤ alignTo 8 m := by
  unfold alignTo
  omega

theorem representableFields_skip {ver mv : Nat} {t : TypeRef}
    {rest : List (Nat × TypeRef)} (vs : List Value) (hv : ver < mv) :
    representableFields ver ((mv, t) :: rest) vs = representableFields ver rest vs := by
  cases vs <;> simp [representableFields, hv]

theorem packFieldItems_skip {ver mv : Nat} {t : TypeRef}
    {rest : List (Nat × TypeRef)} (vs : List Value) (hv : ver < mv) :
    packFieldItems ver ((mv, t) :: rest) vs = packFieldItems ver rest vs := by
  cases vs <;> simp [packFieldItems, hv]

theorem packFieldItems_append_elim {ver : Nat} {fs gs : List (Nat × TypeRef)}
    {vs ws : List Value} {items : List (TypeRef × ItemEnc)}
    (hr : representableFields ver fs vs = true)
    (h : packFieldItems ver (fs ++ gs) (vs ++ ws) = .ok items) :
    ∃ xs ys, items = xs ++ ys ∧ packFieldItems ver fs vs = .ok xs ∧
      packFieldItems ver gs ws = .ok ys := by
  induction fs generalizing vs items with
  | nil =>
    cases vs with
    | nil => exact ⟨[], items, by simp, by simp [packFieldItems], h⟩
    | cons v vtl => simp [representableFields] at hr
  | cons p rest ih =>
    obtain ⟨mv, t⟩ := p
    by_cases hv : ver < mv
    · rw [representableFields_skip vs hv] at hr
      rw [List.cons_append, packFieldItems_skip (vs ++ ws) hv] at h
      obtain ⟨xs, ys, he, hx, hy⟩ := ih hr h
      refine ⟨xs, ys, he, ?_, hy⟩
      rw [packFieldItems_skip vs hv]
      exact hx
    · cases vs with
      | nil => simp [representableFields, hv] at hr
      | cons v vtl =>
        simp only [representableFields, if_neg hv, Bool.and_eq_true] at hr
        simp only [List.cons_append, packFieldItems, if_neg hv] at h
        match hpi : packItem t v with
        | .ok it =>
          simp only [hpi] at h
          match hrest : packFieldItems ver (rest ++ gs) (vtl ++ ws) with
          | .ok items2 =>
            simp only [hrest] at h
            cases h
            obtain ⟨xs, ys, he, hx, hy⟩ := ih hr.2 hrest
            refine ⟨(t, it) :: xs, ys, by simp [he], ?_, hy⟩
            simp only [packFieldItems, if_neg hv, hpi, hx]
          | .error e1 => simp only [hrest] at h; cases h
        | .error e1 => simp only [hpi] at h; cases h

/-- C3: version tolerance — packing a struct under schema version N+1 (whose
field list adds one trailing field at minimum version N+1) and deparsing the
bytes against the version-N schema (the fields visible at version N) succeeds
and yields exactly the version-N-visible field values; fields laid out beyond
what the receiving schema reads are ignored rather than causing an error. -/
theorem C3_version_tolerance (N : Nat) (fs : List (Nat × TypeRef)) (extraT : TypeRef)
    (vs : List Value) (ev : Value) (b : Bytes)
    (hvis : ∀ p ∈ fs, p.1 ≤ N)
    (hsplit : representableFields (N + 1) fs vs = true)
    (hrep : representable (.structT (N + 1) (fs ++ [(N + 1, extraT)]))
      (.structV (vs ++ [ev])) = true)
    (hpack : pack (.structT (N + 1) (fs ++ [(N + 1, extraT)]))
      (.structV (vs ++ [ev])) = .ok b) :
    deparse (.structT N fs) b = .ok (.structV vs) := by
  have hr2 := hrep
  simp only [representable, Bool.and_eq_true, decide_eq_true_eq] at hr2
  obtain ⟨⟨hver32, hflds⟩, hblobok⟩ := hr2
  obtain ⟨b2, hb2, hb2len⟩ := blobLenOk_elim hblobok
  have hpb : packBlob (.structT (N + 1) (fs ++ [(N + 1, extraT)]))
      (.structV (vs ++ [ev])) = .ok b := hpack
  rw [hpb] at hb2
  injection hb2 with hbe
  subst hbe
  simp only [packBlob] at hpb
  match hitems : packFieldItems (N + 1) (fs ++ [(N + 1, extraT)]) (vs ++ [ev]) with
  | .error e1 => simp only [hitems] at hpb; cases hpb
  | .ok items1 =>
    simp only [hitems] at hpb
    split at hpb
    case isFalse => cases hpb
    case isTrue =>
      rename_i hcond
      injection hpb with hbe
      subst hbe
      obtain ⟨xs, ys, hisplit, hxs, hys⟩ := packFieldItems_append_elim hsplit hitems
      subst hisplit
      have hslA := packFieldItems_slot_length hflds hitems
      have hieA := packFieldItems_itemsEnd hitems 8
      have hieF := packFieldItems_itemsEnd hxs 8
      have hslF := packFieldItems_slot_length hsplit hxs
      have hba := buildInline_append true xs ys 8
        (alignTo 8 (layoutEnd (N + 1) 8 (fs ++ [(N + 1, extraT)])))
      set endoF := layoutEnd (N + 1) 8 fs with hendoF
      set endo := layoutEnd (N + 1) 8 (fs ++ [(N + 1, extraT)]) with hendo
      set L := alignTo 8 endo with hL
      set rA := buildInline true (xs ++ ys) 8 L with hrA
      set rF := buildInline true xs 8 L with hrF
      obtain ⟨hL32, hN32⟩ := hcond
      have hendoF8 : 8 ≤ endoF := layoutEnd_le (N + 1) fs 8
      have hFle : endoF ≤ endo := by
        have h1 : endo = layoutEnd (N + 1) endoF [(N + 1, extraT)] := by
          rw [hendo, hendoF, layoutEnd_append]
        have h2 : layoutEnd (N + 1) endoF [(N + 1, extraT)] =
            alignTo (slotAlign extraT) endoF + slotSize extraT := by
          simp only [layoutEnd]
          rw [if_neg (by omega : ¬ (N + 1 < N + 1))]
        have h3 := alignTo_le (slotAlign extraT) endoF
        omega
      have hendoL : endo ≤ L := by
        rw [hL]
        exact alignTo_le 8 endo
      have hdvd : 8 ∣ L := by
        rw [hL]
        exact alignTo_dvd 8 endo (by norm_num)
      have hfstA := buildInline_fst_length true (xs ++ ys) hslA 8 L
      have hfstF := buildInline_fst_length true xs hslF 8 L
      have hA1len : rA.1.length = endo - 8 := by
        rw [hfstA, hieA]
      have hF1len : rF.1.length = endoF - 8 := by
        rw [hfstF, hieF]
      have hba2len : rA.2.length = rF.2.length +
          (buildInline true ys (itemsEnd true xs 8) (L + rF.2.length)).2.length := by
        rw [hba.2]
        simp
      set B := encodeLE 4 L ++ encodeLE 4 (N + 1) ++ rA.1 ++
        List.replicate (L - endo) 0 ++ rA.2 with hB
      have hr0 : readAt B 0 4 = some (encodeLE 4 L) := by
        rw [hB]
        simp only [List.append_assoc]
        exact readAt_zero _ (encodeLE_length 4 L)
      have hr4 : readAt B 4 4 = some (encodeLE 4 (N + 1)) := by
        rw [hB]
        simp only [List.append_assoc]
        rw [readAt_skip (encodeLE_length 4 L) (by omega : 4 + 0 = 4)]
        exact readAt_zero _ (encodeLE_length 4 (N + 1))
      have hinlA : readAt B 8 rA.1.length = some rA.1 := by
        rw [hB]
        simp only [List.append_assoc]
        rw [readAt_skip (encodeLE_length 4 L) (by omega : 4 + 4 = 8),
          readAt_skip (encodeLE_length 4 (N + 1)) (by omega : 4 + 0 = 4)]
        exact readAt_zero _ rfl
      have hinlF : readAt B 8 rF.1.length = some rF.1 := by
        have hsub := readAt_sub hinlA 0 rF.1.length (by omega)
        rw [Nat.add_zero, List.drop_zero, hba.1] at hsub
        rwa [take_at _ rfl] at hsub
      have hdropL : B.drop L = rF.2 ++
          (buildInline true ys (itemsEnd true xs 8) (L + rF.2.length)).2 := by
        rw [hB]
        simp only [List.append_assoc]
        rw [drop_skip (encodeLE_length 4 L) (by omega : 4 + (L - 4) = L),
          drop_skip (encodeLE_length 4 (N + 1)) (by omega : 4 + (L - 8) = L - 4),
          drop_skip hA1len (by omega : (endo - 8) + (L - endo) = L - 8),
          drop_at _ (List.length_replicate _ _)]
        exact hba.2
      have hblen2 : B.length < 2 ^ 32 := hb2len
      have hBlen : B.length = L + rA.2.length := by
        rw [hB]
        simp only [List.length_append, encodeLE_length, List.length_replicate, hA1len]
        omega
      have hdf : deparseFields (N + 1) fs B L 8 = .ok vs := by
        refine rt_fields fs (N + 1) vs xs B L 8 L hsplit hxs hinlF
          ⟨(buildInline true ys (itemsEnd true xs 8) (L + rF.2.length)).2, hdropL⟩
          ?_ ?_ ?_ ?_
        · rw [hieF]
          omega
        · omega
        · show L + rF.2.length < 2 ^ 64
          omega
        · rw [hieF]
          omega
      have hnot1 : ¬ (B.length < L) := by omega
      have hnot2 : ¬ (L < alignTo 8 (layoutEnd (N + 1) 8 fs)) := by
        rw [← hendoF]
        have hm := alignTo8_mono hFle
        rw [← hL] at hm
        omega
      simp only [deparse, deparseBlob, hr0, hr4, decodeLE_encodeLE_small32 hL32,
        decodeLE_encodeLE_small32 hN32, if_neg hnot1, if_neg hnot2, hdf]

end Mojom

namespace Mojom

theorem C3_version_tolerance_witness :
    representableFields 1 [(0, TypeRef.int 4 true)] [Value.intV 7] = true ∧
    representable (.structT 1 [(0, TypeRef.int 4 true), (1, TypeRef.int 4 true)])
      (.structV [Value.intV 7, Value.intV 9]) = true ∧
    pack (.structT 1 [(0, TypeRef.int 4 true), (1, TypeRef.int 4 true)])
      (.structV [Value.intV 7, Value.intV 9]) =
      .ok [16, 0, 0, 0, 1, 0, 0, 0, 7, 0, 0, 0, 9, 0, 0, 0] ∧
    deparse (.structT 0 [(0, TypeRef.int 4 true)])
      [16, 0, 0, 0, 1, 0, 0, 0, 7, 0, 0, 0, 9, 0, 0, 0] =
      .ok (.structV [Value.intV 7]) := by
  have hsplit : representableFields 1 [(0, TypeRef.int 4 true)] [Value.intV 7] = true := by
    simp only [representableFields, representable]
    rfl
  have hrep : representable (.structT 1 [(0, TypeRef.int 4 true), (1, TypeRef.int 4 true)])
      (.structV [Value.intV 7, Value.intV 9]) = true := by
    simp only [representable, representableFields, blobLenOk, packBlob, packFieldItems,
      packItem, packScalar]
    rfl
  have hpack : pack (.structT 1 [(0, TypeRef.int 4 true), (1, TypeRef.int 4 true)])
      (.structV [Value.intV 7, Value.intV 9]) =
      .ok [16, 0, 0, 0, 1, 0, 0, 0, 7, 0, 0, 0, 9, 0, 0, 0] := by
    simp only [pack, packBlob, packFieldItems, packItem, packScalar]
    rfl
  have hvis : ∀ p ∈ ([(0, TypeRef.int 4 true)] : List (Nat × TypeRef)), p.1 ≤ 0 := by
    intro p hp
    rw [List.mem_singleton] at hp
    subst hp
    decide
  exact ⟨hsplit, hrep, hpack,
    C3_version_tolerance 0 [(0, TypeRef.int 4 true)] (TypeRef.int 4 true)
      [Value.intV 7] (Value.intV 9) _ hvis hsplit hrep hpack⟩

theorem parseValueF_succ (f : Nat) (ts : List Token) :
    parseValueF (f + 1) ts =
      match parsePrimaryF f ts with
      | some (a, r) => parseOrRestF f a r
      | none => none := rfl

theorem parseOrRestF_succ_punct (f : Nat) (a : PValue) (c : Char) (r : List Token) :
    parseOrRestF (f + 1) a (Token.punct c :: r) =
      if c = '|' then
        match parsePrimaryF f r with
        | some (b, r1) => parseOrRestF f (.orV a b) r1
        | none => none
      else some (a, Token.punct c :: r) := rfl

theorem parseOrRestF_succ_nil (f : Nat) (a : PValue) :
    parseOrRestF (f + 1) a [] = some (a, []) := rfl

/-- C8: in the value parser `|` is left-associative and has the lowest
precedence — for value expressions A, B, C whose token sequences parse as
primaries (literals, references, array literals, which therefore bind
tighter than `|`), the token sequence `A | B | C` parses to the tree
`(A | B) | C` consuming the whole input. -/
theorem C8_or_left_assoc (tA tB tC : List Token) (a b c : PValue)
    (htA : 0 < tA.length)
    (hA : parsePrimaryF (tA.length + tB.length + tC.length + 2)
      (tA ++ (Token.punct '|' :: (tB ++ (Token.punct '|' :: tC)))) =
      some (a, Token.punct '|' :: (tB ++ (Token.punct '|' :: tC))))
    (hB : parsePrimaryF (tA.length + tB.length + tC.length + 1)
      (tB ++ (Token.punct '|' :: tC)) = some (b, Token.punct '|' :: tC))
    (hC : parsePrimaryF (tA.length + tB.length + tC.length) tC = some (c, [])) :
    parse_value (tA ++ (Token.punct '|' :: (tB ++ (Token.punct '|' :: tC)))) =
      some (.orV (.orV a b) c, []) := by
  simp only [parse_value]
  rw [show (tA ++ (Token.punct '|' :: (tB ++ (Token.punct '|' :: tC)))).length + 1 =
    tA.length + tB.length + tC.length + 2 + 1 from by
      simp only [List.length_append, List.length_cons]
      omega]
  rw [parseValueF_succ]
  simp only [hA]
  rw [show tA.length + tB.length + tC.length + 2 =
    tA.length + tB.length + tC.length + 1 + 1 from rfl]
  rw [parseOrRestF_succ_punct, if_pos rfl]
  simp only [hB]
  rw [parseOrRestF_succ_punct, if_pos rfl]
  simp only [hC]
  obtain ⟨k, hk⟩ : ∃ k, tA.length + tB.length + tC.length = k + 1 :=
    ⟨tA.length + tB.length + tC.length - 1, by omega⟩
  rw [hk, parseOrRestF_succ_nil]

theorem C8_or_left_assoc_witness :
    0 < ([Token.punct '[', Token.intLit 1, Token.punct ',', Token.intLit 2,
      Token.punct ']'] : List Token).length ∧
    parse_value ([Token.punct '[', Token.intLit 1, Token.punct ',', Token.intLit 2,
        Token.punct ']'] ++ (Token.punct '|' :: ([Token.intLit 3] ++
        (Token.punct '|' :: [Token.ident "x"])))) =
      some (.orV (.orV (.arr [.intLit 1, .intLit 2]) (.intLit 3)) (.ref "x"), []) := by
  refine ⟨by decide, ?_⟩
  exact C8_or_left_assoc
    [Token.punct '[', Token.intLit 1, Token.punct ',', Token.intLit 2, Token.punct ']']
    [Token.intLit 3] [Token.ident "x"]
    (.arr [.intLit 1, .intLit 2]) (.intLit 3) (.ref "x")
    (by decide) rfl rfl rfl

end Mojom
